import Mathlib

/-!
Shallow embedding of the key parts of the `openai-gemini-api-key-rotator`
proxy (JavaScript) and proofs about them.

Embedded components:
* `ProxyServer.cleanAuthHeader`, `ProxyServer.parseStatusCodesFromAuth`
  (directive parsing / header cleaning, modelled on `List Char`);
* `KeyRotator` / `RequestKeyContext` (smart shuffle, per-request key
  iteration);
* the rotation loop of `OpenAIClient.makeRequest` / `GeminiClient.makeRequest`
  (shared shape, parameterised by the flavor-specific synthetic response);
* the slice of `ProxyServer.handleRequest` that maps a client lookup and a
  `makeRequest` outcome to the client-visible response.

JavaScript strings are modelled as `List Char`; JS `Set` objects as
duplicate-free `List`s grown by insert-if-absent; JS `null` as `none`;
`Math.random()` draws as an explicit `List Nat` seed consumed by the
Fisher-Yates shuffle; upstream I/O as an oracle `String → AttemptOutcome`.
-/

/-- Whitespace test used by the model of JS `String.prototype.trim` and the
leading-whitespace skip of `parseInt` (ASCII whitespace). -/
def isWSb (c : Char) : Bool :=
  c = ' ' || c = '\t' || c = '\n' || c = '\r' || c = '\x0b' || c = '\x0c'

/-- Left trim: drop leading whitespace. -/
def trimL (s : List Char) : List Char :=
  s.dropWhile isWSb

/-- Model of JS `s.trim()`: drop whitespace at both ends. -/
def jsTrim (s : List Char) : List Char :=
  ((trimL s).reverse.dropWhile isWSb).reverse

/-- Case-insensitive literal match: consume `pat` from the front of the
input (comparing lowercased characters, as the `/i` regex flag does) and
return the rest, or `none`. -/
def ciDrop : List Char → List Char → Option (List Char)
  | [], s => some s
  | _ :: _, [] => none
  | p :: ps, c :: cs => if c.toLower = p.toLower then ciDrop ps cs else none

/-- Consume the `[^\]]+\]` part of a directive regex: at least one
non-`]` character followed by `]`.  Returns the captured content and the
rest after the closing bracket. -/
def dirSplitAux : List Char → Option (List Char × List Char)
  | [] => none
  | c :: cs =>
    if c = ']' then some ([], cs)
    else
      match dirSplitAux cs with
      | some (con, rest) => some (c :: con, rest)
      | none => none

/-- Like `dirSplitAux` but requires the content to be nonempty (the `+` in
`[^\]]+`). -/
def dirSplit : List Char → Option (List Char × List Char)
  | [] => none
  | c :: cs =>
    if c = ']' then none
    else
      match dirSplitAux cs with
      | some (con, rest) => some (c :: con, rest)
      | none => none

/-- Try to match a whole directive `pat` `[^\]]+` `]` at the head of `s`
(`pat` is the literal part such as `[STATUS_CODES:`, matched
case-insensitively).  Returns the captured content and the rest of the
string after the match. -/
def matchDir (pat : List Char) (s : List Char) : Option (List Char × List Char) :=
  match ciDrop pat s with
  | none => none
  | some r => dirSplit r

/-- Fuel-bounded global regex replacement with the empty string: scan left
to right, on a match skip past it, otherwise keep one character.  This is
the behaviour of JS `s.replace(/pat[^\]]+\]/gi, '')`. -/
def replaceDirF (pat : List Char) : List Char → Nat → List Char
  | _, 0 => []
  | [], _ + 1 => []
  | c :: cs, fuel + 1 =>
    match matchDir pat (c :: cs) with
    | some (_, rest) => replaceDirF pat rest fuel
    | none => c :: replaceDirF pat cs fuel

/-- Global removal of every `pat`-directive (JS `.replace(..., '')` with a
global case-insensitive regex).  The fuel `s.length + 1` is enough because
every step strictly shortens the remaining input. -/
def replaceDir (pat : List Char) (s : List Char) : List Char :=
  replaceDirF pat s (s.length + 1)

/-- Return the captured content of the first `pat` directive in `s`
(the JS `s.match(/pat([^\]]+)\]/i)` capture group), or `none`. -/
def findDir (pat : List Char) : List Char → Option (List Char)
  | [] => none
  | c :: cs =>
    match matchDir pat (c :: cs) with
    | some (con, _) => some con
    | none => findDir pat cs

/-- Literal part of the `[STATUS_CODES:...]` directive regex. -/
def statusPat : List Char := "[STATUS_CODES:".toList

/-- Literal part of the `[ACCESS_KEY:...]` directive regex. -/
def accessPat : List Char := "[ACCESS_KEY:".toList

/-- Strip both directives, in the order the source does. -/
def stripDirectives (s : List Char) : List Char :=
  replaceDir accessPat (replaceDir statusPat s)

/-- Model of `ProxyServer.cleanAuthHeader`: a falsy (empty) header is
returned unchanged; otherwise both directives are stripped and the result
trimmed; if what remains is exactly `Bearer` or `Bearer ` the header is
dropped (`none`, JS `null`). -/
def cleanAuthHeader (h : List Char) : Option (List Char) :=
  if h = [] then some h
  else
    let cleaned := jsTrim (stripDirectives h)
    if cleaned = "Bearer".toList ∨ cleaned = "Bearer ".toList then none
    else some cleaned

/-- Decimal value of a digit string (fold, as repeated `*10 + digit`). -/
def decVal (ds : List Char) : Nat :=
  ds.foldl (fun a c => a * 10 + (c.toNat - '0'.toNat)) 0

/-- Hexadecimal digit test (JS `parseInt` with an `0x` prefix). -/
def isHexDigitb (c : Char) : Bool :=
  c.isDigit || ('a' ≤ c && c ≤ 'f') || ('A' ≤ c && c ≤ 'F')

/-- Value of a hex digit. -/
def hexDigitVal (c : Char) : Nat :=
  if c.isDigit then c.toNat - '0'.toNat
  else if 'a' ≤ c && c ≤ 'f' then c.toNat - 'a'.toNat + 10
  else c.toNat - 'A'.toNat + 10

/-- Hexadecimal value of a hex digit string. -/
def hexVal (ds : List Char) : Nat :=
  ds.foldl (fun a c => a * 16 + hexDigitVal c) 0

/-- Longest leading run of decimal digits, or `NaN` (`none`) if there is
none. -/
def parseDecHead (s : List Char) : Option Nat :=
  let ds := s.takeWhile Char.isDigit
  if ds = [] then none else some (decVal ds)

/-- Longest leading run of hex digits, or `NaN` (`none`) if there is none. -/
def parseHexHead (s : List Char) : Option Nat :=
  let ds := s.takeWhile isHexDigitb
  if ds = [] then none else some (hexVal ds)

/-- Magnitude part of JS `parseInt` with no radix argument: an `0x`/`0X`
prefix selects base 16, otherwise base 10; the longest valid digit prefix
is taken and anything after it is ignored; no digits at all gives `NaN`. -/
def parseUIntJS (s : List Char) : Option Nat :=
  match s with
  | '0' :: x :: r => if x = 'x' ∨ x = 'X' then parseHexHead r else parseDecHead s
  | _ => parseDecHead s

/-- Model of JS `parseInt(s)`: skip leading whitespace, read an optional
sign, then the magnitude; `none` models `NaN`. -/
def parseIntJS (s : List Char) : Option Int :=
  match s.dropWhile isWSb with
  | '-' :: r => (parseUIntJS r).map (fun n => -(n : Int))
  | '+' :: r => (parseUIntJS r).map (fun n => (n : Int))
  | r => (parseUIntJS r).map (fun n => (n : Int))

/-- The inclusive integer range produced by `for (let i = s; i <= e; i++)`;
empty when `e < s`. -/
def intRange (s e : Int) : List Int :=
  (List.range (e + 1 - s).toNat).map (fun (i : Nat) => s + (i : Int))

/-- Split on a separator character, JS `s.split(sep)` (so `"".split` gives
one empty piece, and separators at the ends give empty pieces). -/
def splitOnChar (sep : Char) : List Char → List (List Char)
  | [] => [[]]
  | c :: cs =>
    let r := splitOnChar sep cs
    if c = sep then [] :: r
    else
      match r with
      | h :: t => (c :: h) :: t
      | [] => [[c]]

/-- JS `list.slice(0, -n)`: all but the last `n` characters. -/
def dropLastN (n : Nat) (s : List Char) : List Char :=
  s.take (s.length - n)

/-- JS `Set.prototype.add`: append only if absent (duplicate-free list). -/
def setAdd (s : List String) (k : String) : List String :=
  if s.contains k then s else s ++ [k]

/-- JS `Set` insertion for integers, used while collecting status codes. -/
def intSetAdd (s : List Int) (k : Int) : List Int :=
  if s.contains k then s else s ++ [k]

/-- Codes contributed by one comma-separated term of a `[STATUS_CODES:...]`
spec, mirroring the branch structure of the source: a term containing `-`
is treated as a range; otherwise a `=+` suffix means `base..599`, a `+`
suffix means `base+1..599`, and anything else is a single `parseInt`. -/
def termCodes (p : List Char) : List Int :=
  if p.contains '-' then
    match splitOnChar '-' p with
    | a :: b :: _ =>
      match parseIntJS (jsTrim a), parseIntJS (jsTrim b) with
      | some s, some e => intRange s e
      | _, _ => []
    | _ => []
  else if ("=+".toList).isSuffixOf p then
    match parseIntJS (jsTrim (dropLastN 2 p)) with
    | some b => intRange b 599
    | none => []
  else if ("+".toList).isSuffixOf p then
    match parseIntJS (jsTrim (dropLastN 1 p)) with
    | some b => intRange (b + 1) 599
    | none => []
  else
    match parseIntJS (jsTrim p) with
    | some c => [c]
    | none => []

/-- Accumulate the contributions of all terms into the JS `Set` (insertion
order, duplicates dropped). -/
def collectCodes (parts : List (List Char)) : List Int :=
  parts.foldl (fun acc p => (termCodes p).foldl intSetAdd acc) []

/-- Model of `ProxyServer.parseStatusCodesFromAuth`: extract the first
`[STATUS_CODES:...]` directive, split its content on commas, trim each
part, collect the contributions, and return `none` when the set ends up
empty (so the default `{429}` applies downstream). -/
def parseStatusCodesFromAuth (h : List Char) : Option (List Int) :=
  match findDir statusPat h with
  | none => none
  | some content =>
    let parts := (splitOnChar ',' content).map jsTrim
    let codes := collectCodes parts
    if codes = [] then none else some codes

/-- JS array destructuring swap `[l[i], l[j]] = [l[j], l[i]]`; out-of-range
indices leave the list unchanged (they never occur in the shuffle). -/
def listSwap (l : List String) (i j : Nat) : List String :=
  match l.get? i, l.get? j with
  | some a, some b => (l.set i b).set j a
  | _, _ => l

/-- Fisher-Yates downward loop of `RequestKeyContext.smartShuffle`.  The
loop variable is `i + 1`; the swap partner `j = floor(random * (i + 2))` is
supplied by the seed list (`% (i + 2)` keeps it in range `0..i+1`, and an
exhausted seed swaps with index 0). -/
def fyAux : List String → Nat → List Nat → List String
  | l, 0, _ => l
  | l, i + 1, rand => fyAux (listSwap l (i + 1) (rand.headD 0 % (i + 2))) i rand.tail

/-- Fisher-Yates shuffle over the copied key list (`for (let i = len-1;
i > 0; i--)`). -/
def fisherYates (keys : List String) (rand : List Nat) : List String :=
  match keys.length with
  | 0 => keys
  | n + 1 => fyAux keys n rand

/-- Model of `RequestKeyContext.smartShuffle`: shuffle, then, when the
last-failed key is truthy (non-null and non-empty) and contained in the
input list, remove its first occurrence from the shuffled list and push it
to the end. -/
def smartShuffle (keys : List String) (lastFailedKey : Option String) (rand : List Nat) :
    List String :=
  let shuffled := fisherYates keys rand
  match lastFailedKey with
  | none => shuffled
  | some k =>
    if k = "" then shuffled
    else if keys.contains k then
      if shuffled.contains k then shuffled.erase k ++ [k] else shuffled
    else shuffled

/-- Per-request state of `RequestKeyContext` (JS `Set`s as duplicate-free
lists). -/
structure RequestKeyContext where
  originalApiKeys : List String
  apiKeys : List String
  currentIndex : Nat
  triedKeys : List String
  rateLimitedKeys : List String
  lastFailedKeyForThisRequest : Option String
deriving DecidableEq, Repr

/-- Model of the `RequestKeyContext` constructor. -/
def mkRequestContext (apiKeys : List String) (lastFailedKey : Option String)
    (rand : List Nat) : RequestKeyContext :=
  { originalApiKeys := apiKeys
    apiKeys := smartShuffle apiKeys lastFailedKey rand
    currentIndex := 0
    triedKeys := []
    rateLimitedKeys := []
    lastFailedKeyForThisRequest := none }

/-- Inner `while (attempts < this.apiKeys.length)` loop of
`RequestKeyContext.getNextKey`: look at the key under the cursor; if it was
already tried, advance the cursor modulo the length and retry, else record
it as tried and return it. -/
def getNextKeyLoop (keys : List String) (tried : List String) :
    Nat → Nat → Option String × Nat × List String
  | idx, 0 => (none, idx, tried)
  | idx, fuel + 1 =>
    let key := keys.getD idx ""
    if tried.contains key then getNextKeyLoop keys tried ((idx + 1) % keys.length) fuel
    else (some key, idx, tried ++ [key])

/-- Model of `RequestKeyContext.getNextKey`: `null` as soon as the tried
set has reached the pool size, otherwise run the bounded cursor loop. -/
def getNextKey (ctx : RequestKeyContext) : Option String × RequestKeyContext :=
  if ctx.apiKeys.length ≤ ctx.triedKeys.length then (none, ctx)
  else
    match getNextKeyLoop ctx.apiKeys ctx.triedKeys ctx.currentIndex ctx.apiKeys.length with
    | (res, idx, tried) => (res, { ctx with currentIndex := idx, triedKeys := tried })

/-- Model of `RequestKeyContext.markKeyAsRateLimited`: add the key to the
rate-limited set, remember it as the last failed key of this request, and
advance the cursor. -/
def markKeyAsRateLimited (ctx : RequestKeyContext) (key : String) : RequestKeyContext :=
  { ctx with
    rateLimitedKeys := setAdd ctx.rateLimitedKeys key
    lastFailedKeyForThisRequest := some key
    currentIndex := (ctx.currentIndex + 1) % ctx.apiKeys.length }

/-- Model of `RequestKeyContext.allTriedKeysRateLimited`:
`triedKeys.size > 0 && rateLimitedKeys.size === triedKeys.size`. -/
def allTriedKeysRateLimited (ctx : RequestKeyContext) : Bool :=
  ctx.triedKeys.length != 0 && ctx.rateLimitedKeys.length == ctx.triedKeys.length

/-- Shared pool state of a provider (`KeyRotator`). -/
structure KeyRotator where
  apiKeys : List String
  lastFailedKey : Option String
deriving DecidableEq, Repr

/-- Model of `KeyRotator.createRequestContext` (the random draws of the
shuffle are passed explicitly). -/
def createRequestContext (kr : KeyRotator) (rand : List Nat) : RequestKeyContext :=
  mkRequestContext kr.apiKeys kr.lastFailedKey rand

/-- Model of `KeyRotator.updateLastFailedKey`. -/
def updateLastFailedKey (kr : KeyRotator) (failedKey : Option String) : KeyRotator :=
  { kr with lastFailedKey := failedKey }

/-- A completed upstream HTTP response as the clients resolve it
(`{statusCode, headers, data}`). -/
structure HttpResponse where
  statusCode : Int
  headers : List (String × String)
  data : String
deriving DecidableEq, Repr

/-- Outcome of one `sendRequest` attempt: a resolved response or a rejected
promise (transport error, carrying the error message). -/
inductive AttemptOutcome where
  | resp (r : HttpResponse)
  | err (e : String)

/-- Result of `makeRequest`: a returned response, a thrown error, or the
out-of-fuel artifact of the bounded loop model (never produced for the
fuel `makeRequest` supplies; see `rotationLoop_no_fuelOut`). -/
inductive MakeRequestResult where
  | ok (r : HttpResponse)
  | thrown (e : String)
  | fuelOut
deriving DecidableEq, Repr

/-- Observable trace of one rotation-path `makeRequest` call: the returned
or thrown outcome, the pool state afterwards, the final request context,
the keys attempted in order, the arguments of every
`updateLastFailedKey` call made, and the internal `lastResponse`
variable at the end. -/
structure MakeRequestTrace where
  result : MakeRequestResult
  pool : KeyRotator
  ctx : RequestKeyContext
  attempts : List String
  updates : List (Option String)
  lastResponse : Option HttpResponse
deriving DecidableEq, Repr

/-- The `while ((apiKey = requestContext.getNextKey()) !== null)` loop of
`OpenAIClient.makeRequest` / `GeminiClient.makeRequest` plus the
finalization after it, with an explicit fuel bound on the number of
`getNextKey` calls.  On a response whose status is in the rotation set the
key is marked rate limited and the response remembered; on a transport
error the error is remembered; otherwise the response is returned at once.
After exhaustion the pool hint is updated, and either the remembered
rotation response (or the synthetic one) is returned, or the remembered
error (or a generic one) is thrown. -/
def rotationLoop (upstream : String → AttemptOutcome) (codes : List Int)
    (synthetic : HttpResponse) (pool : KeyRotator) :
    RequestKeyContext → Option String → Option HttpResponse → List String → Nat →
    MakeRequestTrace
  | ctx, _, lastResponse, attempts, 0 =>
    { result := .fuelOut, pool := pool, ctx := ctx, attempts := attempts,
      updates := [], lastResponse := lastResponse }
  | ctx, lastError, lastResponse, attempts, fuel + 1 =>
    match getNextKey ctx with
    | (none, ctx') =>
      if allTriedKeysRateLimited ctx' then
        { result := .ok (lastResponse.getD synthetic)
          pool := updateLastFailedKey pool ctx'.lastFailedKeyForThisRequest
          ctx := ctx', attempts := attempts,
          updates := [ctx'.lastFailedKeyForThisRequest],
          lastResponse := lastResponse }
      else
        match lastError with
        | some e =>
          { result := .thrown e
            pool := updateLastFailedKey pool ctx'.lastFailedKeyForThisRequest
            ctx := ctx', attempts := attempts,
            updates := [ctx'.lastFailedKeyForThisRequest], lastResponse := lastResponse }
        | none =>
          { result := .thrown "All API keys exhausted without clear error"
            pool := updateLastFailedKey pool ctx'.lastFailedKeyForThisRequest
            ctx := ctx', attempts := attempts,
            updates := [ctx'.lastFailedKeyForThisRequest], lastResponse := lastResponse }
    | (some k, ctx') =>
      match upstream k with
      | .err e =>
        rotationLoop upstream codes synthetic pool ctx' (some e) lastResponse
          (attempts ++ [k]) fuel
      | .resp r =>
        if r.statusCode ∈ codes then
          rotationLoop upstream codes synthetic pool (markKeyAsRateLimited ctx' k)
            lastError (some r) (attempts ++ [k]) fuel
        else
          { result := .ok r, pool := pool, ctx := ctx', attempts := attempts ++ [k],
            updates := [], lastResponse := lastResponse }

/-- Rotation-path `makeRequest` (no client-supplied key): create a fresh
request context over the pool, resolve the rotation code set
(`customStatusCodes || new Set([429])`), and run the loop.  The fuel bound
`|apiKeys| + 1` can never be hit (`makeRequest_no_fuelOut`). -/
def makeRequest (upstream : String → AttemptOutcome) (customStatusCodes : Option (List Int))
    (synthetic : HttpResponse) (pool : KeyRotator) (rand : List Nat) : MakeRequestTrace :=
  let requestContext := createRequestContext pool rand
  let rotationStatusCodes := customStatusCodes.getD [429]
  rotationLoop upstream rotationStatusCodes synthetic pool requestContext none none []
    (requestContext.apiKeys.length + 1)

/-- Synthetic exhaustion response of the OpenAI-flavor client. -/
def openaiSynthetic : HttpResponse :=
  { statusCode := 429
    headers := [("content-type", "application/json")]
    data := "\x7b\"error\":\x7b\"message\":\"All OpenAI API keys have been rate limited for this request\",\"type\":\"rate_limit_exceeded\",\"code\":\"rate_limit_exceeded\"\x7d\x7d" }

/-- Synthetic exhaustion response of the Gemini-flavor client. -/
def geminiSynthetic : HttpResponse :=
  { statusCode := 429
    headers := [("content-type", "application/json")]
    data := "\x7b\"error\":\x7b\"code\":429,\"message\":\"All API keys have been rate limited for this request\",\"status\":\"RESOURCE_EXHAUSTED\"\x7d\x7d" }

/-- What the proxy writes back to the client: a status and a body. -/
structure ClientResponse where
  status : Int
  body : String
deriving DecidableEq, Repr

/-- Model of `ProxyServer.sendError` (the JSON error envelope; the JS
message for a missing provider interpolates the provider name, which the
model abstracts away). -/
def sendError (statusCode : Int) (message : String) : ClientResponse :=
  { status := statusCode
    body := "\x7b\"error\":\x7b\"code\":" ++ toString statusCode ++ ",\"message\":\"" ++
      message ++ "\",\"status\":\"" ++
      (if statusCode = 400 then "INVALID_ARGUMENT" else "INTERNAL") ++ "\"\x7d\x7d" }

/-- The proxy-dispatch slice of `ProxyServer.handleRequest` after routing
and access checks: when `getProviderClient` yielded no client, answer 503
before calling `makeRequest`; otherwise pass a returned upstream response
through unchanged, and turn a thrown error into a 500 by the surrounding
`catch`. -/
def dispatchProxy (clientExists : Bool) (tr : MakeRequestTrace) : ClientResponse :=
  if clientExists = false then sendError 503 "Provider not configured"
  else
    match tr.result with
    | .ok r => { status := r.statusCode, body := r.data }
    | .thrown _ => sendError 500 "Internal server error"
    | .fuelOut => sendError 500 "Internal server error"

/-- Flavor of a provider, as far as credential headers are concerned. -/
inductive ApiType where
  | openai
  | gemini
deriving DecidableEq, Repr

/-- The flavor-specific header a cleaned auth header is placed back
under. -/
def authHeaderName : ApiType → String
  | .openai => "authorization"
  | .gemini => "x-goog-api-key"

/-- The `if (authHeader) { const cleanedAuth = ...; if (cleanedAuth) ... }`
step of `ProxyServer.handleRequest`: a falsy (absent or empty) header, a
dropped header, or an empty cleaned header leaves the forwarded headers
unchanged; a truthy cleaned header is placed under the flavor-specific
name.  Headers are modelled as a lookup function. -/
def applyCleanedAuth (t : ApiType) (headers : String → Option (List Char))
    (authHeader : List Char) : String → Option (List Char) :=
  if authHeader = [] then headers
  else
    match cleanAuthHeader authHeader with
    | none => headers
    | some c =>
      if c = [] then headers
      else fun n => if n = authHeaderName t then some c else headers n

/-! ### Trimming lemmas -/

theorem head?_dropWhile_false (p : Char → Bool) (l : List Char) {a : Char}
    (h : (l.dropWhile p).head? = some a) : p a = false := by
  have hf := List.head?_dropWhile_not p l
  rw [h] at hf
  exact hf

theorem dropWhile_eq_self_of_head? (p : Char → Bool) (l : List Char)
    (h : ∀ a, l.head? = some a → p a = false) : l.dropWhile p = l := by
  cases l with
  | nil => rfl
  | cons c cs => simp [List.dropWhile, h c rfl]

theorem jsTrim_head (s : List Char) {a : Char} (h : (jsTrim s).head? = some a) :
    isWSb a = false := by
  unfold jsTrim at h
  rw [List.head?_reverse] at h
  obtain ⟨t, ht⟩ := List.dropWhile_suffix (l := (trimL s).reverse) isWSb
  rcases hX : (trimL s).reverse.dropWhile isWSb with _ | ⟨x, xs⟩
  · rw [hX] at h; simp at h
  · rw [hX] at h ht
    have hlast : (trimL s).reverse.getLast? = some a := by
      rw [← ht, List.getLast?_append_of_ne_nil t (by simp)]
      rw [← hX] at h ⊢
      exact h
    rw [List.getLast?_reverse] at hlast
    exact head?_dropWhile_false isWSb s hlast

theorem jsTrim_last (s : List Char) {a : Char} (h : (jsTrim s).getLast? = some a) :
    isWSb a = false := by
  unfold jsTrim at h
  rw [List.getLast?_reverse] at h
  exact head?_dropWhile_false isWSb (trimL s).reverse h

theorem jsTrim_eq_self {l : List Char}
    (h1 : ∀ a, l.head? = some a → isWSb a = false)
    (h2 : ∀ a, l.getLast? = some a → isWSb a = false) : jsTrim l = l := by
  unfold jsTrim trimL
  rw [dropWhile_eq_self_of_head? _ _ h1]
  rw [dropWhile_eq_self_of_head? _ _ (by
    intro a ha
    rw [List.head?_reverse] at ha
    exact h2 a ha)]
  exact List.reverse_reverse l

theorem jsTrim_idem (s : List Char) : jsTrim (jsTrim s) = jsTrim s :=
  jsTrim_eq_self (fun _ h => jsTrim_head s h) (fun _ h => jsTrim_last s h)

/-! ### Claims C9 and C8: header cleaning -/

/-- Claim C9, counterexample.  The claim states that
`cleanAuthHeader (cleanAuthHeader h) = cleanAuthHeader h` for every auth
header `h`.  On `[STATUS[STATUS_CODES:x]_CODES:y]` the single
left-to-right replacement pass removes the inner directive and thereby
creates the new directive `[STATUS_CODES:y]`, which only the second
cleaning removes, so cleaning twice gives the empty string while cleaning
once does not. -/
theorem claim_C9_counterexample :
    cleanAuthHeader ("[STATUS[STATUS_CODES:x]_CODES:y]".toList) =
      some ("[STATUS_CODES:y]".toList) ∧
    (cleanAuthHeader ("[STATUS[STATUS_CODES:x]_CODES:y]".toList)).bind cleanAuthHeader =
      some [] ∧
    (cleanAuthHeader ("[STATUS[STATUS_CODES:x]_CODES:y]".toList)).bind cleanAuthHeader ≠
      cleanAuthHeader ("[STATUS[STATUS_CODES:x]_CODES:y]".toList) := by
  decide

/-- Claim C9 (amended): cleaning twice yields the same result as cleaning
once for every auth header whose once-cleaned value is left unchanged by
directive stripping (in particular whenever the cleaned header contains no
further directive occurrence); stripping can create a fresh directive
occurrence out of nested brackets, and then the two differ. -/
theorem claim_C9_amended : ∀ h c, cleanAuthHeader h = some c →
    stripDirectives c = c → cleanAuthHeader c = some c := by
  intro h c hc hstrip
  by_cases hcnil : c = []
  · subst hcnil
    simp [cleanAuthHeader]
  · by_cases hh : h = []
    · subst hh
      simp [cleanAuthHeader] at hc
      exact absurd hc hcnil
    · rw [cleanAuthHeader, if_neg hh] at hc
      by_cases hb : jsTrim (stripDirectives h) = "Bearer".toList ∨
          jsTrim (stripDirectives h) = "Bearer ".toList
      · rw [if_pos hb] at hc
        exact absurd hc (by simp)
      · rw [if_neg hb] at hc
        have hceq : c = jsTrim (stripDirectives h) := (Option.some_inj.mp hc).symm
        have hcc : jsTrim c = c := by rw [hceq, jsTrim_idem]
        rw [cleanAuthHeader, if_neg hcnil]
        show (if jsTrim (stripDirectives c) = "Bearer".toList ∨
            jsTrim (stripDirectives c) = "Bearer ".toList then none
          else some (jsTrim (stripDirectives c))) = some c
        rw [hstrip, hcc, if_neg (hceq ▸ hb)]

/-- Claim C8, counterexample.  The claim states that whenever the cleaned
remainder differs from `Bearer`/`Bearer `, the cleaned header is placed
back into the forwarded headers under the flavor-specific name.  For the
header `[ACCESS_KEY:x]` the cleaned remainder is the empty string, which
differs from both `Bearer` forms, yet the dispatcher's truthiness check
(`if (cleanedAuth)`) drops it, so nothing is placed back. -/
theorem claim_C8_counterexample :
    cleanAuthHeader ("[ACCESS_KEY:x]".toList) = some [] ∧
    ("[ACCESS_KEY:x]".toList ≠ ([] : List Char)) ∧
    jsTrim (stripDirectives ("[ACCESS_KEY:x]".toList)) ≠ "Bearer".toList ∧
    jsTrim (stripDirectives ("[ACCESS_KEY:x]".toList)) ≠ "Bearer ".toList ∧
    applyCleanedAuth .gemini (fun _ => none) ("[ACCESS_KEY:x]".toList) "x-goog-api-key" =
      none := by
  decide

/-- Claim C8 (amended): `cleanAuthHeader` strips both bracketed directives
and trims the remainder; the header is dropped (`none`) exactly when that
remainder equals `Bearer` or `Bearer `; otherwise the cleaned header is
placed back under the flavor-specific name (`authorization` for openai,
`x-goog-api-key` for gemini) only when it is non-empty — an empty cleaned
header is falsy in JS and is not forwarded. -/
theorem claim_C8_amended :
    (∀ h : List Char, h ≠ [] →
      (cleanAuthHeader h = none ↔
        (jsTrim (stripDirectives h) = "Bearer".toList ∨
         jsTrim (stripDirectives h) = "Bearer ".toList))) ∧
    (∀ h : List Char, h ≠ [] → ∀ c, cleanAuthHeader h = some c →
      c = jsTrim (stripDirectives h)) ∧
    (∀ (t : ApiType) (headers : String → Option (List Char)) (h : List Char) (c : List Char),
      cleanAuthHeader h = some c → c ≠ [] →
      applyCleanedAuth t headers h (authHeaderName t) = some c) ∧
    (∀ (t : ApiType) (headers : String → Option (List Char)) (h : List Char) (c : List Char)
      (n : String), cleanAuthHeader h = some c → c ≠ [] → n ≠ authHeaderName t →
      applyCleanedAuth t headers h n = headers n) ∧
    (∀ (t : ApiType) (headers : String → Option (List Char)) (h : List Char),
      cleanAuthHeader h = some [] → applyCleanedAuth t headers h = headers) ∧
    (∀ (t : ApiType) (headers : String → Option (List Char)) (h : List Char),
      cleanAuthHeader h = none → applyCleanedAuth t headers h = headers) ∧
    authHeaderName .openai = "authorization" ∧
    authHeaderName .gemini = "x-goog-api-key" := by
  refine ⟨?_, ?_, ?_, ?_, ?_, ?_, rfl, rfl⟩
  · intro h hh
    rw [cleanAuthHeader, if_neg hh]
    constructor
    · intro hnone
      by_contra hb
      rw [if_neg hb] at hnone
      exact absurd hnone (by simp)
    · intro hb
      rw [if_pos hb]
  · intro h hh c hc
    rw [cleanAuthHeader, if_neg hh] at hc
    by_cases hb : jsTrim (stripDirectives h) = "Bearer".toList ∨
        jsTrim (stripDirectives h) = "Bearer ".toList
    · rw [if_pos hb] at hc
      exact absurd hc (by simp)
    · rw [if_neg hb] at hc
      exact (Option.some_inj.mp hc).symm
  · intro t headers h c hc hcne
    have hh : h ≠ [] := by
      intro hnil
      rw [hnil] at hc
      simp [cleanAuthHeader] at hc
      exact hcne hc
    rw [applyCleanedAuth, if_neg hh, hc]
    simp [hcne]
  · intro t headers h c n hc hcne hn
    have hh : h ≠ [] := by
      intro hnil
      rw [hnil] at hc
      simp [cleanAuthHeader] at hc
      exact hcne hc
    rw [applyCleanedAuth, if_neg hh, hc]
    simp [hcne, hn]
  · intro t headers h hc
    by_cases hh : h = []
    · rw [applyCleanedAuth, if_pos hh]
    · rw [applyCleanedAuth, if_neg hh, hc]
      simp
  · intro t headers h hc
    by_cases hh : h = []
    · rw [applyCleanedAuth, if_pos hh]
    · rw [applyCleanedAuth, if_neg hh, hc]

/-- Claim C8, witness: a concrete header whose cleaned value is non-empty
is placed back under the openai flavor name. -/
theorem claim_C8_witness :
    cleanAuthHeader ("Bearer [ACCESS_KEY:z]sk-live".toList) =
      some ("Bearer sk-live".toList) ∧
    ("Bearer sk-live".toList ≠ ([] : List Char)) ∧
    applyCleanedAuth .openai (fun _ => none) ("Bearer [ACCESS_KEY:z]sk-live".toList)
      (authHeaderName .openai) = some ("Bearer sk-live".toList) :=
  ⟨by decide, by decide,
    claim_C8_amended.2.2.1 .openai (fun _ => none) ("Bearer [ACCESS_KEY:z]sk-live".toList)
      ("Bearer sk-live".toList) (by decide) (by decide)⟩

/-- Claim C9, witness: a header whose cleaned value contains no directive
occurrence is a fixed point of the second cleaning. -/
theorem claim_C9_witness :
    cleanAuthHeader ("Bearer [STATUS_CODES:429]sk-abc".toList) =
      some ("Bearer sk-abc".toList) ∧
    stripDirectives ("Bearer sk-abc".toList) = "Bearer sk-abc".toList ∧
    cleanAuthHeader ("Bearer sk-abc".toList) = some ("Bearer sk-abc".toList) :=
  ⟨by decide, by decide,
    claim_C9_amended ("Bearer [STATUS_CODES:429]sk-abc".toList) ("Bearer sk-abc".toList)
      (by decide) (by decide)⟩

/-! ### Status-code parsing lemmas -/

/-- A nonempty all-decimal-digit character list. -/
def isDigits (p : List Char) : Prop :=
  p ≠ [] ∧ ∀ c ∈ p, c.isDigit = true

instance (p : List Char) : Decidable (isDigits p) := by
  unfold isDigits
  infer_instance

theorem isWSb_not_digit {c : Char} (h : isWSb c = true) : c.isDigit = false := by
  simp [isWSb] at h
  rcases h with ((((rfl | rfl) | rfl) | rfl) | rfl) | rfl <;> decide

theorem digit_not_WS {c : Char} (h : c.isDigit = true) : isWSb c = false := by
  cases hw : isWSb c
  · rfl
  · rw [isWSb_not_digit hw] at h
    cases h

theorem digit_ne {c d : Char} (h : c.isDigit = true) (hd : d.isDigit = false) : c ≠ d := by
  intro he
  rw [he, hd] at h
  cases h

theorem contains_eq_true_iff {α : Type} [BEq α] [LawfulBEq α] {l : List α} {c : α} :
    l.contains c = true ↔ c ∈ l :=
  List.elem_iff

theorem contains_eq_false_iff {α : Type} [BEq α] [LawfulBEq α] {l : List α} {c : α} :
    l.contains c = false ↔ c ∉ l := by
  rw [← contains_eq_true_iff]
  cases l.contains c <;> simp

theorem isDigits_not_mem {p : List Char} (hp : isDigits p) {d : Char}
    (hd : d.isDigit = false) : d ∉ p := by
  intro hmem
  have := hp.2 d hmem
  rw [hd] at this
  cases this

theorem isDigits_trim {p : List Char} (hp : isDigits p) : jsTrim p = p := by
  apply jsTrim_eq_self
  · intro a ha
    exact digit_not_WS (hp.2 a (List.mem_of_mem_head? (Option.mem_def.mpr ha)))
  · intro a ha
    exact digit_not_WS (hp.2 a (List.mem_of_mem_getLast? (Option.mem_def.mpr ha)))

theorem isDigits_dropWhileWS {p : List Char} (hp : isDigits p) : p.dropWhile isWSb = p := by
  apply dropWhile_eq_self_of_head?
  intro a ha
  exact digit_not_WS (hp.2 a (List.mem_of_mem_head? (Option.mem_def.mpr ha)))

theorem isDigits_parseDecHead {p : List Char} (hp : isDigits p) :
    parseDecHead p = some (decVal p) := by
  rw [parseDecHead]
  rw [List.takeWhile_eq_self_iff.mpr hp.2]
  simp [hp.1]

theorem isDigits_parseUInt {p : List Char} (hp : isDigits p) :
    parseUIntJS p = some (decVal p) := by
  rw [parseUIntJS.eq_def]
  split
  · rename_i x r
    have hx : x.isDigit = true := hp.2 x (by simp)
    rw [if_neg]
    · exact isDigits_parseDecHead hp
    · rintro (rfl | rfl) <;> simp at hx
  · exact isDigits_parseDecHead hp

theorem isDigits_parseInt {p : List Char} (hp : isDigits p) :
    parseIntJS p = some ((decVal p : Int)) := by
  rw [parseIntJS.eq_def]
  rw [isDigits_dropWhileWS hp]
  split
  · have hd : ('-' : Char).isDigit = true := hp.2 '-' (by simp)
    simp at hd
  · have hd : ('+' : Char).isDigit = true := hp.2 '+' (by simp)
    simp at hd
  · rw [isDigits_parseUInt hp]
    rfl

theorem splitOnChar_not_mem {sep : Char} : ∀ {b : List Char}, sep ∉ b →
    splitOnChar sep b = [b]
  | [], _ => rfl
  | c :: cs, h => by
    rw [splitOnChar]
    have hc : ¬ c = sep := fun he => h (he ▸ List.mem_cons_self c cs)
    have ih := splitOnChar_not_mem (b := cs) (fun hm => h (List.mem_cons_of_mem c hm))
    simp only [ih, if_neg hc]

theorem splitOnChar_append {sep : Char} : ∀ {a b : List Char}, sep ∉ a →
    splitOnChar sep (a ++ sep :: b) = a :: splitOnChar sep b
  | [], b, _ => by
    rw [List.nil_append, splitOnChar, if_pos rfl]
  | c :: cs, b, h => by
    have hc : ¬ c = sep := fun he => h (he ▸ List.mem_cons_self c cs)
    have ih := splitOnChar_append (a := cs) (b := b)
      (fun hm => h (List.mem_cons_of_mem c hm))
    rw [List.cons_append, splitOnChar]
    simp only [ih, if_neg hc]

theorem intRange_mem {s e c : Int} : c ∈ intRange s e ↔ s ≤ c ∧ c ≤ e := by
  unfold intRange
  rw [List.mem_map]
  constructor
  · rintro ⟨i, hi, rfl⟩
    rw [List.mem_range] at hi
    have hle : (i : Int) < e + 1 - s := Int.lt_toNat.mp hi
    omega
  · rintro ⟨h1, h2⟩
    refine ⟨(c - s).toNat, ?_, ?_⟩
    · rw [List.mem_range, Int.lt_toNat, Int.toNat_of_nonneg (by omega)]
      omega
    · rw [Int.toNat_of_nonneg (by omega)]
      omega

theorem intSetAdd_mem {s : List Int} {k c : Int} : c ∈ intSetAdd s k ↔ c ∈ s ∨ c = k := by
  unfold intSetAdd
  split
  · rename_i h
    rw [contains_eq_true_iff] at h
    constructor
    · exact Or.inl
    · rintro (hc | rfl)
      · exact hc
      · exact h
  · simp

theorem foldl_intSetAdd_mem : ∀ (l acc : List Int) (c : Int),
    c ∈ l.foldl intSetAdd acc ↔ c ∈ acc ∨ c ∈ l
  | [], acc, c => by simp
  | x :: xs, acc, c => by
    rw [List.foldl_cons, foldl_intSetAdd_mem xs, intSetAdd_mem]
    simp only [List.mem_cons]
    tauto

theorem collectCodes_mem_aux : ∀ (parts : List (List Char)) (acc : List Int) (c : Int),
    c ∈ parts.foldl (fun acc p => (termCodes p).foldl intSetAdd acc) acc ↔
      c ∈ acc ∨ ∃ p ∈ parts, c ∈ termCodes p
  | [], acc, c => by simp
  | p :: ps, acc, c => by
    rw [List.foldl_cons, collectCodes_mem_aux ps, foldl_intSetAdd_mem]
    simp only [List.mem_cons]
    constructor
    · rintro ((h | h) | ⟨q, hq, hc⟩)
      · exact Or.inl h
      · exact Or.inr ⟨p, Or.inl rfl, h⟩
      · exact Or.inr ⟨q, Or.inr hq, hc⟩
    · rintro (h | ⟨q, (rfl | hq), hc⟩)
      · exact Or.inl (Or.inl h)
      · exact Or.inl (Or.inr hc)
      · exact Or.inr ⟨q, hq, hc⟩

theorem collectCodes_mem {parts : List (List Char)} {c : Int} :
    c ∈ collectCodes parts ↔ ∃ p ∈ parts, c ∈ termCodes p := by
  rw [collectCodes, collectCodes_mem_aux]
  simp

theorem collectCodes_eq_nil {parts : List (List Char)} :
    collectCodes parts = [] ↔ ∀ p ∈ parts, termCodes p = [] := by
  rw [List.eq_nil_iff_forall_not_mem]
  constructor
  · intro h p hp
    rw [List.eq_nil_iff_forall_not_mem]
    intro c hc
    exact h c (collectCodes_mem.mpr ⟨p, hp, hc⟩)
  · intro h c hc
    obtain ⟨p, hp, hcp⟩ := collectCodes_mem.mp hc
    rw [h p hp] at hcp
    cases hcp

theorem not_suffix_of_digits {p : List Char} (hp : isDigits p) {q : List Char}
    (hq : ∃ d ∈ q, d.isDigit = false) : ¬ (q <:+ p) := by
  rintro ⟨t, ht⟩
  obtain ⟨d, hd, hdd⟩ := hq
  have hmem : d ∈ p := ht ▸ List.mem_append_right t hd
  have := hp.2 d hmem
  rw [hdd] at this
  cases this

theorem termCodes_digits {p : List Char} (hp : isDigits p) :
    termCodes p = [(decVal p : Int)] := by
  have h1 : '-' ∉ p := isDigits_not_mem hp (by decide)
  have h2 : ¬ (['=', '+'] <:+ p) := not_suffix_of_digits hp ⟨'=', by decide, by decide⟩
  have h3 : ¬ (['+'] <:+ p) := not_suffix_of_digits hp ⟨'+', by decide, by decide⟩
  simp [termCodes, h1, h2, h3, isDigits_trim hp, isDigits_parseInt hp]

theorem termCodes_range {a b : List Char} (ha : isDigits a) (hb : isDigits b) :
    termCodes (a ++ '-' :: b) = intRange (decVal a) (decVal b) := by
  have hc : '-' ∈ a ++ '-' :: b := by simp
  have hsplit : splitOnChar '-' (a ++ '-' :: b) = [a, b] := by
    rw [splitOnChar_append (isDigits_not_mem ha (by decide)),
      splitOnChar_not_mem (isDigits_not_mem hb (by decide))]
  simp [termCodes, hc, hsplit, isDigits_trim ha, isDigits_trim hb,
    isDigits_parseInt ha, isDigits_parseInt hb]

theorem termCodes_plus {a : List Char} (ha : isDigits a) :
    termCodes (a ++ "+".toList) = intRange ((decVal a : Int) + 1) 599 := by
  have h1 : '-' ∉ a := isDigits_not_mem ha (by decide)
  have h2 : ¬ (['=', '+'] <:+ a ++ ['+']) := by
    rintro ⟨t, ht⟩
    have ht2 : (t ++ ['=']) ++ ['+'] = a ++ ['+'] := by
      rw [List.append_assoc]
      exact ht
    have ha2 : t ++ ['='] = a := List.append_cancel_right ht2
    have hmem : '=' ∈ a := ha2 ▸ List.mem_append_right t (by decide)
    have := ha.2 '=' hmem
    simp at this
  have h3 : (['+'] : List Char) <:+ a ++ ['+'] := ⟨a, rfl⟩
  have h4 : dropLastN 1 (a ++ ['+']) = a := by
    rw [dropLastN, List.length_append]
    show List.take (a.length + 1 - 1) (a ++ ['+']) = a
    rw [Nat.add_sub_cancel]
    exact List.take_left a _
  simp [termCodes, h1, h2, h3, h4, isDigits_trim ha, isDigits_parseInt ha]

theorem termCodes_eqplus {a : List Char} (ha : isDigits a) :
    termCodes (a ++ "=+".toList) = intRange (decVal a) 599 := by
  have h1 : '-' ∉ a := isDigits_not_mem ha (by decide)
  have h2 : (['=', '+'] : List Char) <:+ a ++ ['=', '+'] := ⟨a, rfl⟩
  have h4 : dropLastN 2 (a ++ ['=', '+']) = a := by
    rw [dropLastN, List.length_append]
    show List.take (a.length + 2 - 2) (a ++ ['=', '+']) = a
    rw [Nat.add_sub_cancel]
    exact List.take_left a _
  simp [termCodes, h1, h2, h4, isDigits_trim ha, isDigits_parseInt ha]

theorem termCodes_skip {p : List Char} (h1 : '-' ∉ p)
    (h3 : ¬ (['+'] <:+ p))
    (hp : parseIntJS (jsTrim p) = none) : termCodes p = [] := by
  have h2 : ¬ (['=', '+'] <:+ p) := by
    intro hb
    exact h3 (List.IsSuffix.trans ⟨['='], rfl⟩ hb)
  simp [termCodes, h1, h2, h3, hp]

/-! ### Claim C7: status-code spec parsing -/

/-- Claim C7, counterexample.  The claim states that any non-integer term
is silently skipped and that out-of-range values are clamped by a 100-599
iteration bound.  The term `42abc` is not an integer, yet JS
`parseInt('42abc')` yields `42`, so the spec `[STATUS_CODES:42abc]`
produces the set `{42}`; moreover `42` lies below 100 and is not clamped
(single codes and ranges are never clamped by the source). -/
theorem claim_C7_counterexample :
    parseStatusCodesFromAuth ("[STATUS_CODES:42abc]".toList) = some [(42 : Int)] ∧
    ((42 : Int) < 100) ∧
    ¬ (∀ c ∈ [(42 : Int)], 100 ≤ c ∧ c ≤ 599) := by
  decide

/-- Claim C7 (amended): for every `[STATUS_CODES:...]` directive,
`parseStatusCodesFromAuth` expands each comma-separated (and trimmed) term
as follows: a pure decimal term `n` contributes `{n}`; `a-b` contributes
`{a..b}` inclusive (empty when `b < a`); `n+` contributes `{n+1..599}`;
`n=+` contributes `{n..599}`; a term in which `parseInt` finds no leading
integer is silently skipped (a term with a leading integer contributes
that integer even if junk follows); single codes and plain ranges are not
clamped to 100-599 — only the `n+`/`n=+` forms are bounded above by 599;
and a missing directive or one whose terms all contribute nothing yields
`null`, upon which the rotation loop falls back to the default `{429}`. -/
theorem claim_C7_amended :
    (∀ h, findDir statusPat h = none → parseStatusCodesFromAuth h = none) ∧
    (∀ h content, findDir statusPat h = some content →
      (parseStatusCodesFromAuth h = none ↔
        ∀ p ∈ (splitOnChar ',' content).map jsTrim, termCodes p = [])) ∧
    (∀ h content c, findDir statusPat h = some content →
      ((∃ l, parseStatusCodesFromAuth h = some l ∧ c ∈ l) ↔
        ∃ p ∈ (splitOnChar ',' content).map jsTrim, c ∈ termCodes p)) ∧
    (∀ p, isDigits p → termCodes p = [(decVal p : Int)]) ∧
    (∀ a b, isDigits a → isDigits b →
      termCodes (a ++ '-' :: b) = intRange (decVal a) (decVal b)) ∧
    (∀ a, isDigits a → termCodes (a ++ "+".toList) = intRange ((decVal a : Int) + 1) 599) ∧
    (∀ a, isDigits a → termCodes (a ++ "=+".toList) = intRange (decVal a) 599) ∧
    (∀ s e c, c ∈ intRange s e ↔ s ≤ c ∧ c ≤ e) ∧
    (∀ p, '-' ∉ p → ¬ (['+'] <:+ p) → parseIntJS (jsTrim p) = none → termCodes p = []) ∧
    (∀ upstream synth pool rand, makeRequest upstream none synth pool rand =
      makeRequest upstream (some [429]) synth pool rand) := by
  refine ⟨?_, ?_, ?_, fun p hp => termCodes_digits hp,
    fun a b ha hb => termCodes_range ha hb, fun a ha => termCodes_plus ha,
    fun a ha => termCodes_eqplus ha, fun s e c => intRange_mem,
    fun p h1 h3 hp => termCodes_skip h1 h3 hp, fun upstream synth pool rand => rfl⟩
  · intro h hf
    simp [parseStatusCodesFromAuth, hf]
  · intro h content hf
    simp only [parseStatusCodesFromAuth, hf]
    rw [← collectCodes_eq_nil]
    split
    · rename_i hnil
      simp [hnil]
    · rename_i hnil
      simp [hnil]
  · intro h content c hf
    simp only [parseStatusCodesFromAuth, hf]
    rw [← collectCodes_mem]
    split
    · rename_i hnil
      simp [hnil]
    · rename_i hnil
      simp

/-- Claim C7, witness: the pure decimal term `503` contributes exactly the
code 503. -/
theorem claim_C7_witness :
    isDigits ("503".toList) ∧ termCodes ("503".toList) = [(decVal "503".toList : Int)] :=
  ⟨by decide, claim_C7_amended.2.2.2.1 ("503".toList) (by decide)⟩

/-! ### Claim C2: smart shuffle -/

theorem swapHead : ∀ {l : List String} {m : Nat} {b : String}, l.get? m = some b →
    ∀ c, (b :: l.set m c).Perm (c :: l)
  | [], m, b, h, c => by simp at h
  | x :: t, 0, b, h, c => by
    simp only [List.get?_cons_zero, Option.some_inj] at h
    subst h
    exact List.Perm.swap c x t
  | x :: t, m + 1, b, h, c => by
    simp only [List.get?_cons_succ] at h
    have ih := swapHead h c
    exact (List.Perm.swap x b _).trans ((ih.cons x).trans (List.Perm.swap c x t))

theorem set_set_perm : ∀ (l : List String) (i j : Nat) (a b : String),
    l.get? i = some a → l.get? j = some b → ((l.set i b).set j a).Perm l
  | [], _, _, _, _, hi, _ => by simp at hi
  | x :: t, 0, 0, a, b, hi, hj => by
    simp only [List.get?_cons_zero, Option.some_inj] at hi hj
    subst hi
    subst hj
    exact List.Perm.refl _
  | x :: t, 0, j + 1, a, b, hi, hj => by
    simp only [List.get?_cons_zero, Option.some_inj] at hi
    simp only [List.get?_cons_succ] at hj
    subst hi
    exact swapHead hj x
  | x :: t, i + 1, 0, a, b, hi, hj => by
    simp only [List.get?_cons_succ] at hi
    simp only [List.get?_cons_zero, Option.some_inj] at hj
    subst hj
    exact swapHead hi x
  | x :: t, i + 1, j + 1, a, b, hi, hj => by
    simp only [List.get?_cons_succ] at hi hj
    exact (set_set_perm t i j a b hi hj).cons x

theorem listSwap_perm (l : List String) (i j : Nat) : (listSwap l i j).Perm l := by
  unfold listSwap
  split
  · rename_i a b hi hj
    exact set_set_perm l i j a b hi hj
  · exact List.Perm.refl l

theorem fyAux_perm : ∀ (i : Nat) (l : List String) (rand : List Nat),
    (fyAux l i rand).Perm l
  | 0, l, rand => List.Perm.refl l
  | i + 1, l, rand => by
    rw [fyAux]
    exact (fyAux_perm i _ rand.tail).trans (listSwap_perm l (i + 1) _)

theorem fisherYates_perm (keys : List String) (rand : List Nat) :
    (fisherYates keys rand).Perm keys := by
  rw [fisherYates]
  split
  · exact List.Perm.refl keys
  · exact fyAux_perm _ keys rand

theorem smartShuffle_perm (keys : List String) (hint : Option String) (rand : List Nat) :
    (smartShuffle keys hint rand).Perm keys := by
  rcases hint with _ | k
  · exact fisherYates_perm keys rand
  · show (if k = "" then fisherYates keys rand
      else if keys.contains k then
        (if (fisherYates keys rand).contains k then
          (fisherYates keys rand).erase k ++ [k] else fisherYates keys rand)
      else fisherYates keys rand).Perm keys
    by_cases hk : k = ""
    · rw [if_pos hk]
      exact fisherYates_perm keys rand
    · rw [if_neg hk]
      by_cases hmem : keys.contains k
      · rw [if_pos hmem]
        by_cases hmem2 : (fisherYates keys rand).contains k
        · rw [if_pos hmem2]
          have hk2 : k ∈ fisherYates keys rand := contains_eq_true_iff.mp hmem2
          exact ((List.perm_append_singleton k _).trans
            ((List.perm_cons_erase hk2).symm)).trans (fisherYates_perm keys rand)
        · rw [if_neg hmem2]
          exact fisherYates_perm keys rand
      · rw [if_neg hmem]
        exact fisherYates_perm keys rand

/-- Claim C2, counterexample.  The claim asserts for every key list and
hint that the result is duplicate-free and, for a non-null hint occurring
in the list, ends with the hint.  With the duplicate-carrying list
`["", "", "x"]` and the hint `""` (non-null, and an element of the list),
the seed `[2, 1]` makes the Fisher-Yates pass the identity; the JS
truthiness guard `if (lastFailedKey && ...)` skips the demotion for the
empty-string hint, so the result ends in `"x"` rather than in the hint,
and `""` appears twice rather than at most once. -/
theorem claim_C2_counterexample :
    smartShuffle ["", "", "x"] (some "") [2, 1] = ["", "", "x"] ∧
    ("" ∈ (["", "", "x"] : List String)) ∧
    (smartShuffle ["", "", "x"] (some "") [2, 1]).getLast? ≠ some "" ∧
    (smartShuffle ["", "", "x"] (some "") [2, 1]).count "" = 2 := by
  decide

/-- Claim C2 (amended): `smartShuffle(K, h)` always returns a rearrangement
of `K` (same multiset, same length); when the hint is non-null, non-empty
(JS truthiness) and occurs in `K`, the last element of the result is the
hint; and when `K` itself is duplicate-free, each key appears at most once
in the result. -/
theorem claim_C2_amended :
    ∀ (keys : List String) (hint : Option String) (rand : List Nat),
      (smartShuffle keys hint rand).Perm keys ∧
      (smartShuffle keys hint rand).length = keys.length ∧
      (∀ k, hint = some k → k ≠ "" → k ∈ keys →
        (smartShuffle keys hint rand).getLast? = some k) ∧
      (keys.Nodup → ∀ k, (smartShuffle keys hint rand).count k ≤ 1) := by
  intro keys hint rand
  refine ⟨smartShuffle_perm keys hint rand, (smartShuffle_perm keys hint rand).length_eq,
    ?_, ?_⟩
  · rintro k rfl hk hmem
    show (if k = "" then fisherYates keys rand
      else if keys.contains k then
        (if (fisherYates keys rand).contains k then
          (fisherYates keys rand).erase k ++ [k] else fisherYates keys rand)
      else fisherYates keys rand).getLast? = some k
    rw [if_neg hk, if_pos (contains_eq_true_iff.mpr hmem)]
    have hk2 : k ∈ fisherYates keys rand :=
      ((fisherYates_perm keys rand).mem_iff).mpr hmem
    rw [if_pos (contains_eq_true_iff.mpr hk2)]
    exact List.getLast?_concat _
  · intro hnd k
    have hnd2 : (smartShuffle keys hint rand).Nodup :=
      ((smartShuffle_perm keys hint rand).nodup_iff).mpr hnd
    exact List.nodup_iff_count_le_one.mp hnd2 k

/-- Claim C2, witness: a three-key pool with hint `"b"` ends with `"b"`. -/
theorem claim_C2_witness :
    (("b" : String) ≠ "" ∧ ("b" : String) ∈ (["a", "b", "c"] : List String)) ∧
    (smartShuffle ["a", "b", "c"] (some "b") [0, 0]).getLast? = some "b" :=
  ⟨⟨by decide, by decide⟩,
    (claim_C2_amended ["a", "b", "c"] (some "b") [0, 0]).2.2.1 "b" rfl (by decide) (by decide)⟩

/-! ### Claims C5 and C10: per-request key iteration -/

/-- Invariant of every reachable request context: the tried set is
duplicate-free, contains only pool keys, and the cursor is in range (or
the pool is empty). -/
def CtxInv (ctx : RequestKeyContext) : Prop :=
  ctx.triedKeys.Nodup ∧ (∀ k ∈ ctx.triedKeys, k ∈ ctx.apiKeys) ∧
    (ctx.currentIndex < ctx.apiKeys.length ∨ ctx.apiKeys = [])

instance (ctx : RequestKeyContext) : Decidable (CtxInv ctx) := by
  unfold CtxInv
  infer_instance

theorem getNextKeyLoop_some : ∀ (fuel : Nat) (keys tried : List String) (idx : Nat)
    (k : String) (idx' : Nat) (tried' : List String),
    getNextKeyLoop keys tried idx fuel = (some k, idx', tried') →
    k ∉ tried ∧ tried' = tried ++ [k] ∧ keys.getD idx' "" = k ∧
      (idx < keys.length → idx' < keys.length)
  | 0, _, _, _, _, _, _, h => by simp [getNextKeyLoop] at h
  | fuel + 1, keys, tried, idx, k, idx', tried', h => by
    rw [getNextKeyLoop] at h
    split at h
    · rename_i hc
      have ih := getNextKeyLoop_some fuel keys tried ((idx + 1) % keys.length) k idx' tried' h
      refine ⟨ih.1, ih.2.1, ih.2.2.1, ?_⟩
      intro hidx
      exact ih.2.2.2 (Nat.mod_lt _ (Nat.lt_of_le_of_lt (Nat.zero_le idx) hidx))
    · rename_i hc
      simp only [Prod.mk.injEq, Option.some_inj] at h
      obtain ⟨h1, h2, h3⟩ := h
      refine ⟨?_, ?_, ?_, ?_⟩
      · intro hmem
        exact hc (contains_eq_true_iff.mpr (h1 ▸ hmem))
      · rw [← h3, h1]
      · rw [← h2, h1]
      · intro hidx
        rw [← h2]
        exact hidx

theorem getNextKeyLoop_none : ∀ (fuel : Nat) (keys tried : List String) (idx : Nat)
    (idx' : Nat) (tried' : List String), idx < keys.length →
    getNextKeyLoop keys tried idx fuel = (none, idx', tried') →
    tried' = tried ∧ (∀ m < fuel, keys.getD ((idx + m) % keys.length) "" ∈ tried) ∧
      idx' < keys.length
  | 0, keys, tried, idx, idx', tried', hidx, h => by
    rw [getNextKeyLoop] at h
    simp only [Prod.mk.injEq] at h
    exact ⟨h.2.2.symm, fun m hm => absurd hm (Nat.not_lt_zero m), h.2.1 ▸ hidx⟩
  | fuel + 1, keys, tried, idx, idx', tried', hidx, h => by
    rw [getNextKeyLoop] at h
    split at h
    · rename_i hc
      have hlen : 0 < keys.length := Nat.lt_of_le_of_lt (Nat.zero_le idx) hidx
      have ih := getNextKeyLoop_none fuel keys tried ((idx + 1) % keys.length) idx' tried'
        (Nat.mod_lt _ hlen) h
      refine ⟨ih.1, ?_, ih.2.2⟩
      intro m hm
      cases m with
      | zero =>
        rw [Nat.add_zero, Nat.mod_eq_of_lt hidx]
        exact contains_eq_true_iff.mp hc
      | succ m =>
        have := ih.2.1 m (Nat.lt_of_succ_lt_succ hm)
        rw [Nat.mod_add_mod, show idx + 1 + m = idx + (m + 1) by omega] at this
        exact this
    · simp at h

theorem getNextKeyLoop_all_tried : ∀ (fuel : Nat) (keys tried : List String) (idx : Nat),
    idx < keys.length → (∀ x ∈ keys, x ∈ tried) →
    (getNextKeyLoop keys tried idx fuel).1 = none ∧
      (getNextKeyLoop keys tried idx fuel).2.2 = tried
  | 0, _, _, _, _, _ => ⟨rfl, rfl⟩
  | fuel + 1, keys, tried, idx, hidx, hall => by
    rw [getNextKeyLoop]
    have hkey : keys.getD idx "" ∈ keys := by
      rw [List.getD_eq_getElem keys "" hidx]
      exact List.getElem_mem hidx
    have hmem : keys.getD idx "" ∈ tried := hall _ hkey
    rw [if_pos (contains_eq_true_iff.mpr hmem)]
    have hlen : 0 < keys.length := Nat.lt_of_le_of_lt (Nat.zero_le idx) hidx
    exact getNextKeyLoop_all_tried fuel keys tried ((idx + 1) % keys.length)
      (Nat.mod_lt _ hlen) hall

theorem getNextKey_some_facts {ctx : RequestKeyContext} {k : String}
    {ctx' : RequestKeyContext} (h : getNextKey ctx = (some k, ctx')) :
    ctx'.apiKeys = ctx.apiKeys ∧ ctx'.originalApiKeys = ctx.originalApiKeys ∧
      ctx'.rateLimitedKeys = ctx.rateLimitedKeys ∧
      ctx'.lastFailedKeyForThisRequest = ctx.lastFailedKeyForThisRequest ∧
      k ∉ ctx.triedKeys ∧ ctx'.triedKeys = ctx.triedKeys ++ [k] ∧
      ctx.triedKeys.length < ctx.apiKeys.length := by
  rw [getNextKey] at h
  split at h
  · simp at h
  · rename_i hlt
    split at h
    rename_i res idx tried hloop
    simp only [Prod.mk.injEq] at h
    obtain ⟨hres, hctx⟩ := h
    subst hres
    obtain ⟨hk1, hk2, -, -⟩ := getNextKeyLoop_some _ _ _ _ _ _ _ hloop
    rw [← hctx]
    exact ⟨rfl, rfl, rfl, rfl, hk1, hk2, Nat.lt_of_not_le hlt⟩

theorem getNextKey_none_facts {ctx : RequestKeyContext} {ctx' : RequestKeyContext}
    (hinv : CtxInv ctx) (h : getNextKey ctx = (none, ctx')) :
    ctx'.apiKeys = ctx.apiKeys ∧ ctx'.originalApiKeys = ctx.originalApiKeys ∧
      ctx'.rateLimitedKeys = ctx.rateLimitedKeys ∧
      ctx'.lastFailedKeyForThisRequest = ctx.lastFailedKeyForThisRequest ∧
      ctx'.triedKeys = ctx.triedKeys := by
  rw [getNextKey] at h
  split at h
  · simp only [Prod.mk.injEq] at h
    rw [← h.2]
    exact ⟨rfl, rfl, rfl, rfl, rfl⟩
  · rename_i hlt
    split at h
    rename_i res idx tried hloop
    simp only [Prod.mk.injEq] at h
    obtain ⟨hres, hctx⟩ := h
    subst hres
    have hidx : ctx.currentIndex < ctx.apiKeys.length := by
      rcases hinv.2.2 with h | h
      · exact h
      · rw [h] at hlt
        simp at hlt
    obtain ⟨ht, -, -⟩ := getNextKeyLoop_none _ _ _ _ _ _ hidx hloop
    rw [← hctx]
    exact ⟨rfl, rfl, rfl, rfl, ht⟩

theorem getNextKey_none_covers {ctx : RequestKeyContext} {ctx' : RequestKeyContext}
    (hinv : CtxInv ctx) (h : getNextKey ctx = (none, ctx')) :
    ∀ x ∈ ctx.apiKeys, x ∈ ctx.triedKeys := by
  rw [getNextKey] at h
  split at h
  · rename_i hle
    have hcard : ctx.apiKeys.toFinset ⊆ ctx.triedKeys.toFinset → ∀ x ∈ ctx.apiKeys,
        x ∈ ctx.triedKeys := by
      intro hsub x hx
      exact List.mem_toFinset.mp (hsub (List.mem_toFinset.mpr hx))
    have h1 : ctx.triedKeys.toFinset ⊆ ctx.apiKeys.toFinset := by
      intro x hx
      exact List.mem_toFinset.mpr (hinv.2.1 x (List.mem_toFinset.mp hx))
    have h2 : ctx.apiKeys.toFinset.card ≤ ctx.triedKeys.toFinset.card := by
      have ha : ctx.apiKeys.toFinset.card ≤ ctx.apiKeys.length :=
        List.toFinset_card_le ctx.apiKeys
      have hb : ctx.triedKeys.toFinset.card = ctx.triedKeys.length :=
        List.toFinset_card_of_nodup hinv.1
      omega
    exact hcard (Finset.eq_of_subset_of_card_le h1 h2 ▸ Finset.Subset.refl _)
  · rename_i hlt
    split at h
    rename_i res idx tried hloop
    simp only [Prod.mk.injEq] at h
    obtain ⟨hres, hctx⟩ := h
    subst hres
    have hlen : 0 < ctx.apiKeys.length := by
      have := Nat.lt_of_not_le hlt
      omega
    have hidx : ctx.currentIndex < ctx.apiKeys.length := by
      rcases hinv.2.2 with h | h
      · exact h
      · rw [h] at hlen
        simp at hlen
    obtain ⟨-, hcov, -⟩ := getNextKeyLoop_none _ _ _ _ _ _ hidx hloop
    intro x hx
    obtain ⟨i, hi, hxi⟩ := List.getElem_of_mem hx
    by_cases hcmp : ctx.currentIndex ≤ i
    · have := hcov (i - ctx.currentIndex) (by omega)
      rw [show ctx.currentIndex + (i - ctx.currentIndex) = i by omega,
        Nat.mod_eq_of_lt hi, List.getD_eq_getElem _ _ hi, hxi] at this
      exact this
    · have := hcov (ctx.apiKeys.length + i - ctx.currentIndex) (by omega)
      rw [show ctx.currentIndex + (ctx.apiKeys.length + i - ctx.currentIndex) =
        ctx.apiKeys.length + i by omega, Nat.add_mod_left, Nat.mod_eq_of_lt hi,
        List.getD_eq_getElem _ _ hi, hxi] at this
      exact this

theorem getNextKey_none_of_all {ctx : RequestKeyContext} (hinv : CtxInv ctx)
    (hall : ∀ x ∈ ctx.apiKeys, x ∈ ctx.triedKeys) : (getNextKey ctx).1 = none := by
  rw [getNextKey]
  split
  · rfl
  · rename_i hlt
    have hlen : 0 < ctx.apiKeys.length := by
      have := Nat.lt_of_not_le hlt
      omega
    have hidx : ctx.currentIndex < ctx.apiKeys.length := by
      rcases hinv.2.2 with h | h
      · exact h
      · rw [h] at hlen
        simp at hlen
    have := getNextKeyLoop_all_tried ctx.apiKeys.length ctx.apiKeys ctx.triedKeys
      ctx.currentIndex hidx hall
    split
    rename_i res idx tried hloop
    rw [hloop] at this
    exact this.1

theorem mkRequestContext_inv (keys : List String) (lf : Option String) (rand : List Nat) :
    CtxInv (mkRequestContext keys lf rand) := by
  refine ⟨List.nodup_nil, by simp [mkRequestContext], ?_⟩
  rcases Nat.eq_zero_or_pos (smartShuffle keys lf rand).length with h0 | hpos
  · exact Or.inr (List.eq_nil_of_length_eq_zero h0)
  · exact Or.inl hpos

theorem ctx_idx_lt {ctx : RequestKeyContext} (hinv : CtxInv ctx)
    (hlen : 0 < ctx.apiKeys.length) : ctx.currentIndex < ctx.apiKeys.length := by
  rcases hinv.2.2 with h | h
  · exact h
  · rw [h] at hlen
    simp at hlen

theorem getNextKey_shape {ctx : RequestKeyContext} {res : Option String}
    {ctx' : RequestKeyContext} (hinv : CtxInv ctx) (h : getNextKey ctx = (res, ctx')) :
    ctx'.apiKeys = ctx.apiKeys ∧
      (ctx'.currentIndex < ctx'.apiKeys.length ∨ ctx'.apiKeys = []) := by
  rw [getNextKey] at h
  split at h
  · simp only [Prod.mk.injEq] at h
    rw [← h.2]
    exact ⟨rfl, hinv.2.2⟩
  · rename_i hle
    split at h
    rename_i r idx tried hloop
    simp only [Prod.mk.injEq] at h
    obtain ⟨hr, hctx⟩ := h
    subst hr
    have hlen : 0 < ctx.apiKeys.length := by
      have := Nat.lt_of_not_le hle
      omega
    have hidx := ctx_idx_lt hinv hlen
    rw [← hctx]
    refine ⟨rfl, Or.inl ?_⟩
    show idx < ctx.apiKeys.length
    rcases r with _ | k
    · exact (getNextKeyLoop_none _ _ _ _ _ _ hidx hloop).2.2
    · exact (getNextKeyLoop_some _ _ _ _ _ _ _ hloop).2.2.2 hidx

theorem getNextKey_inv {ctx : RequestKeyContext} (hinv : CtxInv ctx) :
    CtxInv (getNextKey ctx).2 := by
  rcases hres : getNextKey ctx with ⟨res, ctx'⟩
  show CtxInv ctx'
  obtain ⟨hkeys, hbound⟩ := getNextKey_shape hinv hres
  rcases res with _ | k
  · obtain ⟨-, -, -, -, h5⟩ := getNextKey_none_facts hinv hres
    refine ⟨h5 ▸ hinv.1, ?_, hbound⟩
    intro x hx
    rw [h5] at hx
    rw [hkeys]
    exact hinv.2.1 x hx
  · obtain ⟨-, -, -, -, h5, h6, -⟩ := getNextKey_some_facts hres
    have hkmem : k ∈ ctx.apiKeys := by
      rw [getNextKey] at hres
      split at hres
      · simp at hres
      · rename_i hle
        split at hres
        rename_i r idx tried hloop
        simp only [Prod.mk.injEq] at hres
        obtain ⟨hr, -⟩ := hres
        subst hr
        obtain ⟨-, -, hg, hb⟩ := getNextKeyLoop_some _ _ _ _ _ _ _ hloop
        have hlen : 0 < ctx.apiKeys.length := by
          have := Nat.lt_of_not_le hle
          omega
        have hidx' := hb (ctx_idx_lt hinv hlen)
        rw [← hg, List.getD_eq_getElem _ _ hidx']
        exact List.getElem_mem hidx'
    refine ⟨?_, ?_, hbound⟩
    · rw [h6]
      exact List.Nodup.append hinv.1 (List.nodup_singleton k)
        (List.disjoint_singleton.mpr h5)
    · intro x hx
      rw [h6, List.mem_append] at hx
      rw [hkeys]
      rcases hx with hx | hx
      · exact hinv.2.1 x hx
      · rw [List.mem_singleton] at hx
        subst hx
        exact hkmem

theorem markKeyAsRateLimited_inv {ctx : RequestKeyContext} (k : String)
    (hinv : CtxInv ctx) (hne : ctx.apiKeys ≠ []) :
    CtxInv (markKeyAsRateLimited ctx k) := by
  refine ⟨hinv.1, hinv.2.1, Or.inl ?_⟩
  show (ctx.currentIndex + 1) % ctx.apiKeys.length < ctx.apiKeys.length
  exact Nat.mod_lt _ (List.length_pos.mpr hne)

/-- Claim C5: for every request context reachable through the context
operations (the constructor establishes the invariant `CtxInv`, and both
operations preserve it): `getNextKey` never returns a key already in
`triedKeys`; `triedKeys` only grows; and `getNextKey` returns null exactly
when every key of the attempt order has been tried. -/
theorem claim_C5 :
    (∀ (keys : List String) (lf : Option String) (rand : List Nat),
      CtxInv (mkRequestContext keys lf rand)) ∧
    (∀ ctx : RequestKeyContext, CtxInv ctx →
      (∀ k, (getNextKey ctx).1 = some k → k ∉ ctx.triedKeys) ∧
      (∀ x ∈ ctx.triedKeys, x ∈ (getNextKey ctx).2.triedKeys) ∧
      ((getNextKey ctx).1 = none ↔ ∀ x ∈ ctx.apiKeys, x ∈ ctx.triedKeys) ∧
      CtxInv (getNextKey ctx).2) ∧
    (∀ (ctx : RequestKeyContext) (k : String), CtxInv ctx → ctx.apiKeys ≠ [] →
      CtxInv (markKeyAsRateLimited ctx k)) := by
  refine ⟨mkRequestContext_inv, ?_, fun ctx k hinv hne => markKeyAsRateLimited_inv k hinv hne⟩
  intro ctx hinv
  rcases hres : getNextKey ctx with ⟨res, ctx'⟩
  refine ⟨?_, ?_, ?_, ?_⟩
  · intro k hk
    simp only at hk
    subst hk
    exact (getNextKey_some_facts hres).2.2.2.2.1
  · intro x hx
    simp only
    rcases res with _ | k
    · rw [(getNextKey_none_facts hinv hres).2.2.2.2]
      exact hx
    · rw [(getNextKey_some_facts hres).2.2.2.2.2.1]
      exact List.mem_append_left _ hx
  · constructor
    · intro hnone
      simp only at hnone
      subst hnone
      exact getNextKey_none_covers hinv hres
    · intro hall
      have := getNextKey_none_of_all hinv hall
      rw [hres] at this
      exact this
  · have := getNextKey_inv hinv
    rw [hres] at this
    exact this

/-- Claim C5, witness: a freshly created two-key context satisfies the
invariant and serves a key only once. -/
theorem claim_C5_witness :
    CtxInv (mkRequestContext ["w1", "w2"] none [0]) ∧
    ((getNextKey (mkRequestContext ["w1", "w2"] none [0])).1 = none ↔
      ∀ x ∈ (mkRequestContext ["w1", "w2"] none [0]).apiKeys,
        x ∈ (mkRequestContext ["w1", "w2"] none [0]).triedKeys) :=
  ⟨by decide, (claim_C5.2.1 (mkRequestContext ["w1", "w2"] none [0]) (by decide)).2.2.1⟩

/-- One `getNextKey` call, keeping only the updated context. -/
def ctxStep (ctx : RequestKeyContext) : RequestKeyContext :=
  (getNextKey ctx).2

/-- The context after `n` successive `getNextKey` calls. -/
def ctxIter (ctx : RequestKeyContext) : Nat → RequestKeyContext
  | 0 => ctx
  | n + 1 => ctxStep (ctxIter ctx n)

/-- The key (or null) returned by the `n`-th `getNextKey` call. -/
def outAt (ctx : RequestKeyContext) (n : Nat) : Option String :=
  (getNextKey (ctxIter ctx n)).1

theorem ctxIter_inv {ctx : RequestKeyContext} (hinv : CtxInv ctx) :
    ∀ n, CtxInv (ctxIter ctx n)
  | 0 => hinv
  | n + 1 => getNextKey_inv (ctxIter_inv hinv n)

theorem ctxIter_apiKeys {ctx : RequestKeyContext} (hinv : CtxInv ctx) :
    ∀ n, (ctxIter ctx n).apiKeys = ctx.apiKeys
  | 0 => rfl
  | n + 1 => by
    rw [ctxIter]
    have h := getNextKey_shape (ctxIter_inv hinv n)
      (show getNextKey (ctxIter ctx n) =
        ((getNextKey (ctxIter ctx n)).1, ctxStep (ctxIter ctx n)) from rfl)
    rw [h.1]
    exact ctxIter_apiKeys hinv n

theorem getNextKey_tried_grows {ctx : RequestKeyContext} (hinv : CtxInv ctx) :
    ∀ x ∈ ctx.triedKeys, x ∈ (getNextKey ctx).2.triedKeys := by
  intro x hx
  rcases hres : getNextKey ctx with ⟨res, ctx'⟩
  show x ∈ ctx'.triedKeys
  rcases res with _ | k
  · rw [(getNextKey_none_facts hinv hres).2.2.2.2]
    exact hx
  · rw [(getNextKey_some_facts hres).2.2.2.2.2.1]
    exact List.mem_append_left _ hx

theorem ctxIter_tried_mono {ctx : RequestKeyContext} (hinv : CtxInv ctx) :
    ∀ {a b : Nat}, a ≤ b → ∀ x ∈ (ctxIter ctx a).triedKeys, x ∈ (ctxIter ctx b).triedKeys := by
  intro a b hab
  induction b with
  | zero =>
    intro x hx
    rw [Nat.le_zero.mp hab] at hx
    exact hx
  | succ b ih =>
    intro x hx
    rcases Nat.lt_or_ge a (b + 1) with h | h
    · have := ih (Nat.lt_succ_iff.mp h) x hx
      exact getNextKey_tried_grows (ctxIter_inv hinv b) x this
    · rw [Nat.le_antisymm hab h] at hx
      exact hx

theorem outAt_absorb {ctx : RequestKeyContext} (hinv : CtxInv ctx) (n : Nat)
    (h : outAt ctx n = none) : outAt ctx (n + 1) = none := by
  have hres : getNextKey (ctxIter ctx n) = (none, ctxIter ctx (n + 1)) := by
    rw [← h]
    rfl
  have hcov := getNextKey_none_covers (ctxIter_inv hinv n) hres
  apply getNextKey_none_of_all (ctxIter_inv hinv (n + 1))
  intro x hx
  rw [ctxIter_apiKeys hinv (n + 1)] at hx
  rw [← ctxIter_apiKeys hinv n] at hx
  have := hcov x hx
  exact ctxIter_tried_mono hinv (Nat.le_succ n) x this

theorem outAt_len {ctx : RequestKeyContext} (hinv : CtxInv ctx) :
    ∀ n, outAt ctx n ≠ none →
      (ctxIter ctx n).triedKeys.length = ctx.triedKeys.length + n
  | 0, _ => rfl
  | n + 1, h => by
    have hprev : outAt ctx n ≠ none := by
      intro hc
      exact h (outAt_absorb hinv n hc)
    have ih := outAt_len hinv n hprev
    rcases hk : outAt ctx n with _ | k
    · exact absurd hk hprev
    · have hres : getNextKey (ctxIter ctx n) = (some k, ctxIter ctx (n + 1)) := by
        rw [← hk]
        rfl
      have := (getNextKey_some_facts hres).2.2.2.2.2.1
      rw [show ctxIter ctx (n + 1) = (getNextKey (ctxIter ctx n)).2 from rfl] at *
      rw [hres] at *
      simp only at this ⊢
      rw [this, List.length_append, ih]
      simp
      omega

theorem nodup_subset_card {l₁ l₂ : List String} (h1 : l₁.Nodup)
    (h2 : ∀ x ∈ l₁, x ∈ l₂) : l₁.length ≤ l₂.dedup.length := by
  have ha : l₁.toFinset.card = l₁.length := List.toFinset_card_of_nodup h1
  have hb : l₁.toFinset ⊆ l₂.toFinset := by
    intro x hx
    exact List.mem_toFinset.mpr (h2 x (List.mem_toFinset.mp hx))
  have hc : l₂.toFinset.card = l₂.dedup.length := List.card_toFinset l₂
  have := Finset.card_le_card hb
  omega

/-- Claim C10: iterated `getNextKey` calls on a freshly constructed
context (for an arbitrary key list, duplicates included) return each
distinct key value at most once, return null forever once they have
returned null, and return null from the number of distinct key values
onwards — even when the list length exceeds that number.  (Termination of
each single call is by construction: the source bounds its inner while
loop by `attempts < this.apiKeys.length`, which the embedding mirrors with
the same explicit bound.) -/
theorem claim_C10 :
    ∀ (keys : List String) (lf : Option String) (rand : List Nat),
      (∀ i j k, i < j → outAt (mkRequestContext keys lf rand) i = some k →
        outAt (mkRequestContext keys lf rand) j ≠ some k) ∧
      (∀ i, outAt (mkRequestContext keys lf rand) i = none →
        outAt (mkRequestContext keys lf rand) (i + 1) = none) ∧
      (∀ i, keys.dedup.length ≤ i → outAt (mkRequestContext keys lf rand) i = none) := by
  intro keys lf rand
  have hinv := mkRequestContext_inv keys lf rand
  refine ⟨?_, fun i h => outAt_absorb hinv i h, ?_⟩
  · intro i j k hij hi hj
    have hresi : getNextKey (ctxIter (mkRequestContext keys lf rand) i) =
        (some k, ctxIter (mkRequestContext keys lf rand) (i + 1)) := by
      rw [← hi]
      rfl
    have hk1 : k ∈ (ctxIter (mkRequestContext keys lf rand) (i + 1)).triedKeys := by
      have := (getNextKey_some_facts hresi).2.2.2.2.2.1
      rw [show ctxIter (mkRequestContext keys lf rand) (i + 1) =
        (getNextKey (ctxIter (mkRequestContext keys lf rand) i)).2 from rfl, hresi]
      simp only
      rw [this]
      exact List.mem_append_right _ (List.mem_singleton_self k)
    have hk2 : k ∈ (ctxIter (mkRequestContext keys lf rand) j).triedKeys :=
      ctxIter_tried_mono hinv (Nat.succ_le_of_lt hij) k hk1
    have hresj : getNextKey (ctxIter (mkRequestContext keys lf rand) j) =
        (some k, ctxIter (mkRequestContext keys lf rand) (j + 1)) := by
      rw [← hj]
      rfl
    exact (getNextKey_some_facts hresj).2.2.2.2.1 hk2
  · intro i hd
    rcases hk : outAt (mkRequestContext keys lf rand) i with _ | k
    · rfl
    · exfalso
      have hne : outAt (mkRequestContext keys lf rand) i ≠ none := by
        rw [hk]
        simp
      have hlen := outAt_len hinv i hne
      have hresi : getNextKey (ctxIter (mkRequestContext keys lf rand) i) =
          (some k, ctxIter (mkRequestContext keys lf rand) (i + 1)) := by
        rw [← hk]
        rfl
      have htr : (ctxIter (mkRequestContext keys lf rand) (i + 1)).triedKeys =
          (ctxIter (mkRequestContext keys lf rand) i).triedKeys ++ [k] := by
        rw [show ctxIter (mkRequestContext keys lf rand) (i + 1) =
          (getNextKey (ctxIter (mkRequestContext keys lf rand) i)).2 from rfl, hresi]
        exact (getNextKey_some_facts hresi).2.2.2.2.2.1
      have hinv1 := ctxIter_inv hinv (i + 1)
      have hbound := nodup_subset_card hinv1.1 hinv1.2.1
      have hdedup : (mkRequestContext keys lf rand).apiKeys.dedup.length =
          keys.dedup.length :=
        ((smartShuffle_perm keys lf rand).dedup).length_eq
      have h0 : (mkRequestContext keys lf rand).triedKeys.length = 0 := rfl
      have e1 : (ctxIter (mkRequestContext keys lf rand) (i + 1)).triedKeys.length =
          i + 1 := by
        rw [htr, List.length_append, hlen, h0]
        simp
      have e2 : (ctxIter (mkRequestContext keys lf rand) (i + 1)).apiKeys.dedup.length =
          keys.dedup.length := by
        rw [ctxIter_apiKeys hinv (i + 1)]
        exact hdedup
      rw [e1, e2] at hbound
      omega

/-- Claim C10, witness: with the duplicate-carrying key list
`["u1", "u1", "u2"]` (two distinct values), the third call returns null. -/
theorem claim_C10_witness :
    (["u1", "u1", "u2"] : List String).dedup.length ≤ 2 ∧
    outAt (mkRequestContext ["u1", "u1", "u2"] none [0, 0]) 2 = none :=
  ⟨by decide, (claim_C10 ["u1", "u1", "u2"] none [0, 0]).2.2 2 (by decide)⟩

/-! ### Claims C1, C3, C4, C6: the rotation loop -/

theorem getNextKey_frame (ctx : RequestKeyContext) :
    (getNextKey ctx).2.rateLimitedKeys = ctx.rateLimitedKeys ∧
      (getNextKey ctx).2.lastFailedKeyForThisRequest = ctx.lastFailedKeyForThisRequest := by
  rw [getNextKey]
  split
  · exact ⟨rfl, rfl⟩
  · split
    exact ⟨rfl, rfl⟩

theorem rotationLoop_no_fuelOut : ∀ (fuel : Nat) (up : String → AttemptOutcome)
    (codes : List Int) (synth : HttpResponse) (pool : KeyRotator)
    (ctx : RequestKeyContext) (le0 : Option String) (lr : Option HttpResponse)
    (att : List String), ctx.apiKeys.length - ctx.triedKeys.length < fuel →
    (rotationLoop up codes synth pool ctx le0 lr att fuel).result ≠ .fuelOut
  | 0, _, _, _, _, _, _, _, _, hf => by omega
  | fuel + 1, up, codes, synth, pool, ctx, le0, lr, att, hf => by
    rw [rotationLoop]
    split
    · rename_i ctx' hgn
      split
      · simp
      · split <;> simp
    · rename_i k ctx' hgn
      obtain ⟨hk1, -, -, -, -, hk6, hk7⟩ := getNextKey_some_facts hgn
      split
      · rename_i e hup
        apply rotationLoop_no_fuelOut
        rw [hk1, hk6, List.length_append]
        simp only [List.length_singleton]
        omega
      · rename_i r hup
        split
        · apply rotationLoop_no_fuelOut
          show (markKeyAsRateLimited ctx' k).apiKeys.length -
            (markKeyAsRateLimited ctx' k).triedKeys.length < fuel
          have e1 : (markKeyAsRateLimited ctx' k).apiKeys = ctx'.apiKeys := rfl
          have e2 : (markKeyAsRateLimited ctx' k).triedKeys = ctx'.triedKeys := rfl
          rw [e1, e2, hk1, hk6, List.length_append]
          simp only [List.length_singleton]
          omega
        · simp

theorem makeRequest_no_fuelOut (up : String → AttemptOutcome)
    (codes : Option (List Int)) (synth : HttpResponse) (pool : KeyRotator)
    (rand : List Nat) : (makeRequest up codes synth pool rand).result ≠ .fuelOut := by
  apply rotationLoop_no_fuelOut
  simp [createRequestContext, mkRequestContext]

theorem allTried_rl_ne_nil {ctx : RequestKeyContext}
    (hat : allTriedKeysRateLimited ctx = true) : ctx.rateLimitedKeys ≠ [] := by
  simp only [allTriedKeysRateLimited, Bool.and_eq_true, bne_iff_ne, beq_iff_eq] at hat
  intro hnil
  rw [hnil] at hat
  simp only [List.length_nil] at hat
  omega

theorem rotationLoop_master : ∀ (fuel : Nat) (up : String → AttemptOutcome)
    (codes : List Int) (synth : HttpResponse) (pool : KeyRotator)
    (ctx : RequestKeyContext) (le0 : Option String) (lr : Option HttpResponse)
    (att : List String) (tr : MakeRequestTrace),
    (ctx.rateLimitedKeys ≠ [] → ∃ r0, lr = some r0 ∧ r0.statusCode ∈ codes) →
    rotationLoop up codes synth pool ctx le0 lr att fuel = tr →
    (∀ r, tr.result = .ok r →
      (r.statusCode ∉ codes ∧ tr.updates = [] ∧ tr.pool = pool) ∨
      (allTriedKeysRateLimited tr.ctx = true ∧ r.statusCode ∈ codes)) ∧
    (tr.updates ≠ [] →
      tr.updates = [tr.ctx.lastFailedKeyForThisRequest] ∧
      tr.pool = updateLastFailedKey pool tr.ctx.lastFailedKeyForThisRequest ∧
      (allTriedKeysRateLimited tr.ctx = true →
        tr.result = .ok (tr.lastResponse.getD synth)))
  | 0, up, codes, synth, pool, ctx, le0, lr, att, tr, hP, htr => by
    rw [rotationLoop] at htr
    subst htr
    refine ⟨?_, ?_⟩
    · intro r hr
      simp at hr
    · intro hu
      simp at hu
  | fuel + 1, up, codes, synth, pool, ctx, le0, lr, att, tr, hP, htr => by
    rw [rotationLoop] at htr
    split at htr
    · rename_i ctx' hgn
      have hframe := getNextKey_frame ctx
      rw [hgn] at hframe
      simp only at hframe
      split at htr
      · rename_i hat
        subst htr
        refine ⟨?_, ?_⟩
        · intro r hr
          simp only [MakeRequestResult.ok.injEq] at hr
          right
          refine ⟨hat, ?_⟩
          have hrl : ctx.rateLimitedKeys ≠ [] := by
            rw [← hframe.1]
            exact allTried_rl_ne_nil hat
          obtain ⟨r0, hr0, hr0c⟩ := hP hrl
          subst hr0
          simp only [Option.getD_some] at hr
          rw [← hr]
          exact hr0c
        · intro hu
          exact ⟨rfl, rfl, fun _ => rfl⟩
      · rename_i hat
        split at htr
        · subst htr
          refine ⟨?_, ?_⟩
          · intro r hr
            simp at hr
          · intro hu
            exact ⟨rfl, rfl, fun hat' => absurd hat' hat⟩
        · subst htr
          refine ⟨?_, ?_⟩
          · intro r hr
            simp at hr
          · intro hu
            exact ⟨rfl, rfl, fun hat' => absurd hat' hat⟩
    · rename_i k ctx' hgn
      have hframe := getNextKey_frame ctx
      rw [hgn] at hframe
      simp only at hframe
      split at htr
      · rename_i e hup
        exact rotationLoop_master fuel up codes synth pool ctx' (some e) lr (att ++ [k]) tr
          (fun hrl => hP (hframe.1 ▸ hrl)) htr
      · rename_i r0 hup
        split at htr
        · rename_i hin
          refine rotationLoop_master fuel up codes synth pool (markKeyAsRateLimited ctx' k)
            le0 (some r0) (att ++ [k]) tr (fun _ => ⟨r0, rfl, hin⟩) htr
        · rename_i hin
          subst htr
          refine ⟨?_, ?_⟩
          · intro r hr
            simp only [MakeRequestResult.ok.injEq] at hr
            left
            exact ⟨hr ▸ hin, rfl, rfl⟩
          · intro hu
            simp at hu

/-- Claim C3: a rotation-path `makeRequest` that returns a response (rather
than throwing) returns one whose status is not in the rotation set, or
returns with every tried key rate limited. -/
theorem claim_C3 :
    ∀ (up : String → AttemptOutcome) (customStatusCodes : Option (List Int))
      (synth : HttpResponse) (pool : KeyRotator) (rand : List Nat) (r : HttpResponse),
      (makeRequest up customStatusCodes synth pool rand).result = .ok r →
      (r.statusCode ∉ customStatusCodes.getD [429] ∨
        allTriedKeysRateLimited (makeRequest up customStatusCodes synth pool rand).ctx
          = true) := by
  intro up cc synth pool rand r hr
  have hm := rotationLoop_master ((createRequestContext pool rand).apiKeys.length + 1) up
    (cc.getD [429]) synth pool (createRequestContext pool rand) none none []
    (makeRequest up cc synth pool rand) (fun h => absurd rfl h) rfl
  rcases hm.1 r hr with ⟨h1, -, -⟩ | ⟨h1, h2⟩
  · exact Or.inl h1
  · exact Or.inr h1

/-- Claim C3, witness: with a two-key pool whose attempts both return 429,
the returned response has status 429 and all tried keys are rate
limited. -/
theorem claim_C3_witness :
    (makeRequest (fun k => .resp ⟨429, [], k⟩) none geminiSynthetic
      ⟨["a1", "a2"], none⟩ [0]).result = .ok ⟨429, [], "a1"⟩ ∧
    ((⟨429, [], "a1"⟩ : HttpResponse).statusCode ∉ (none : Option (List Int)).getD [429] ∨
      allTriedKeysRateLimited (makeRequest (fun k => .resp ⟨429, [], k⟩) none
        geminiSynthetic ⟨["a1", "a2"], none⟩ [0]).ctx = true) :=
  ⟨by decide, claim_C3 (fun k => .resp ⟨429, [], k⟩) none geminiSynthetic
    ⟨["a1", "a2"], none⟩ [0] ⟨429, [], "a1"⟩ (by decide)⟩

/-- Claim C4: when the rotation loop exhausts all keys (so the pool hint is
updated) and all tried keys were rate limited, `makeRequest` returns the
last recorded rotation-triggering response, or the flavor-specific
synthetic 429 when none was recorded; both synthetic responses carry
status 429.  In the two-key scenario where both attempts return 429,
exactly two attempts occur, the second upstream 429 body (not the
synthetic) is returned, and the pool hint becomes the second key tried. -/
theorem claim_C4 :
    (∀ (up : String → AttemptOutcome) (customStatusCodes : Option (List Int))
      (synth : HttpResponse) (pool : KeyRotator) (rand : List Nat),
      (makeRequest up customStatusCodes synth pool rand).updates ≠ [] →
      allTriedKeysRateLimited (makeRequest up customStatusCodes synth pool rand).ctx
        = true →
      (makeRequest up customStatusCodes synth pool rand).result =
        .ok ((makeRequest up customStatusCodes synth pool rand).lastResponse.getD synth) ∧
      (makeRequest up customStatusCodes synth pool rand).pool =
        updateLastFailedKey pool
          (makeRequest up customStatusCodes synth pool rand).ctx.lastFailedKeyForThisRequest) ∧
    openaiSynthetic.statusCode = 429 ∧ geminiSynthetic.statusCode = 429 ∧
    (makeRequest (fun k => .resp ⟨429, [], k⟩) none openaiSynthetic
      ⟨["k1", "k2"], none⟩ [0]).attempts = ["k2", "k1"] ∧
    (makeRequest (fun k => .resp ⟨429, [], k⟩) none openaiSynthetic
      ⟨["k1", "k2"], none⟩ [0]).lastResponse = some ⟨429, [], "k1"⟩ ∧
    (makeRequest (fun k => .resp ⟨429, [], k⟩) none openaiSynthetic
      ⟨["k1", "k2"], none⟩ [0]).result = .ok ⟨429, [], "k1"⟩ ∧
    (makeRequest (fun k => .resp ⟨429, [], k⟩) none openaiSynthetic
      ⟨["k1", "k2"], none⟩ [0]).pool.lastFailedKey = some "k1" := by
  refine ⟨?_, rfl, rfl, by decide, by decide, by decide, by decide⟩
  intro up cc synth pool rand hu hat
  have hm := rotationLoop_master ((createRequestContext pool rand).apiKeys.length + 1) up
    (cc.getD [429]) synth pool (createRequestContext pool rand) none none []
    (makeRequest up cc synth pool rand) (fun h => absurd rfl h) rfl
  obtain ⟨hupd, hpool, himp⟩ := hm.2 hu
  exact ⟨himp hat, hpool⟩

/-- Claim C4, witness: the general exhaustion clause applied to the
concrete two-key scenario. -/
theorem claim_C4_witness :
    (makeRequest (fun k => .resp ⟨429, [], k⟩) none openaiSynthetic
      ⟨["w3", "w4"], none⟩ [1]).updates ≠ [] ∧
    allTriedKeysRateLimited (makeRequest (fun k => .resp ⟨429, [], k⟩) none
      openaiSynthetic ⟨["w3", "w4"], none⟩ [1]).ctx = true ∧
    (makeRequest (fun k => .resp ⟨429, [], k⟩) none openaiSynthetic
      ⟨["w3", "w4"], none⟩ [1]).result =
      .ok ((makeRequest (fun k => .resp ⟨429, [], k⟩) none openaiSynthetic
        ⟨["w3", "w4"], none⟩ [1]).lastResponse.getD openaiSynthetic) :=
  ⟨by decide, by decide,
    (claim_C4.1 (fun k => .resp ⟨429, [], k⟩) none openaiSynthetic
      ⟨["w3", "w4"], none⟩ [1] (by decide) (by decide)).1⟩

/-- Claim C1, counterexample.  The claim states that on a successful
(non-rotation) attempt the pool's `updateLastFailedKey` is called before
the response is returned, and that in the `[K1,K2,K3]` / hint-`K2` /
200-on-first-attempt scenario the pool's `lastFailedKey` afterwards is
null.  In the source the success path returns immediately without any
`updateLastFailedKey` call, so the stale hint `k2` persists. -/
theorem claim_C1_counterexample :
    (makeRequest (fun _ => .resp ⟨200, [], "okbody"⟩) none openaiSynthetic
      ⟨["k1", "k2", "k3"], some "k2"⟩ [0, 0]).result = .ok ⟨200, [], "okbody"⟩ ∧
    (makeRequest (fun _ => .resp ⟨200, [], "okbody"⟩) none openaiSynthetic
      ⟨["k1", "k2", "k3"], some "k2"⟩ [0, 0]).attempts = ["k3"] ∧
    (makeRequest (fun _ => .resp ⟨200, [], "okbody"⟩) none openaiSynthetic
      ⟨["k1", "k2", "k3"], some "k2"⟩ [0, 0]).updates = [] ∧
    (makeRequest (fun _ => .resp ⟨200, [], "okbody"⟩) none openaiSynthetic
      ⟨["k1", "k2", "k3"], some "k2"⟩ [0, 0]).pool.lastFailedKey = some "k2" ∧
    (makeRequest (fun _ => .resp ⟨200, [], "okbody"⟩) none openaiSynthetic
      ⟨["k1", "k2", "k3"], some "k2"⟩ [0, 0]).pool.lastFailedKey ≠ none := by
  decide

/-- Claim C1 (amended): on the rotation path, when an attempt yields an
upstream response whose status is not in the rotation set, that response
is returned immediately and `updateLastFailedKey` is not called at all
(the pool state, including `lastFailedKey`, is unchanged); in particular,
for a pool `[k1,k2,k3]` with hint `k2` whose first attempt returns 200,
exactly one attempt occurs, the first key is not `k2` (the hint is
demoted to the tail), and the pool's `lastFailedKey` afterwards is still
`k2`, not null. -/
theorem claim_C1_amended :
    (∀ (up : String → AttemptOutcome) (customStatusCodes : Option (List Int))
      (synth : HttpResponse) (pool : KeyRotator) (rand : List Nat) (r : HttpResponse),
      (makeRequest up customStatusCodes synth pool rand).result = .ok r →
      r.statusCode ∉ customStatusCodes.getD [429] →
      (makeRequest up customStatusCodes synth pool rand).updates = [] ∧
      (makeRequest up customStatusCodes synth pool rand).pool = pool) ∧
    (makeRequest (fun _ => .resp ⟨200, [], "okbody"⟩) none openaiSynthetic
      ⟨["k1", "k2", "k3"], some "k2"⟩ [0, 0]).attempts.length = 1 ∧
    (makeRequest (fun _ => .resp ⟨200, [], "okbody"⟩) none openaiSynthetic
      ⟨["k1", "k2", "k3"], some "k2"⟩ [0, 0]).attempts ≠ ["k2"] ∧
    (makeRequest (fun _ => .resp ⟨200, [], "okbody"⟩) none openaiSynthetic
      ⟨["k1", "k2", "k3"], some "k2"⟩ [0, 0]).pool.lastFailedKey = some "k2" := by
  refine ⟨?_, by decide, by decide, by decide⟩
  intro up cc synth pool rand r hr hnotin
  have hm := rotationLoop_master ((createRequestContext pool rand).apiKeys.length + 1) up
    (cc.getD [429]) synth pool (createRequestContext pool rand) none none []
    (makeRequest up cc synth pool rand) (fun h => absurd rfl h) rfl
  rcases hm.1 r hr with ⟨-, h2, h3⟩ | ⟨-, h2⟩
  · exact ⟨h2, h3⟩
  · exact absurd h2 hnotin

/-- Claim C1, witness: the amended success clause at the concrete
scenario. -/
theorem claim_C1_witness :
    (makeRequest (fun _ => .resp ⟨200, [], "okbody"⟩) none openaiSynthetic
      ⟨["k1", "k2", "k3"], some "k2"⟩ [0, 0]).result = .ok ⟨200, [], "okbody"⟩ ∧
    ((⟨200, [], "okbody"⟩ : HttpResponse).statusCode ∉
      (none : Option (List Int)).getD [429]) ∧
    (makeRequest (fun _ => .resp ⟨200, [], "okbody"⟩) none openaiSynthetic
      ⟨["k1", "k2", "k3"], some "k2"⟩ [0, 0]).updates = [] ∧
    (makeRequest (fun _ => .resp ⟨200, [], "okbody"⟩) none openaiSynthetic
      ⟨["k1", "k2", "k3"], some "k2"⟩ [0, 0]).pool =
      ⟨["k1", "k2", "k3"], some "k2"⟩ :=
  ⟨by decide, by decide,
    claim_C1_amended.1 (fun _ => .resp ⟨200, [], "okbody"⟩) none openaiSynthetic
      ⟨["k1", "k2", "k3"], some "k2"⟩ [0, 0] ⟨200, [], "okbody"⟩ (by decide) (by decide)⟩

theorem rotationLoop_empty (up : String → AttemptOutcome) (codes : List Int)
    (synth : HttpResponse) (pool : KeyRotator) (ctx : RequestKeyContext)
    (lr : Option HttpResponse) (att : List String) (fuel : Nat)
    (hnil : ctx.apiKeys = []) (htried : ctx.triedKeys = [])
    (hlf : ctx.lastFailedKeyForThisRequest = none) :
    rotationLoop up codes synth pool ctx none lr att (fuel + 1) =
      { result := .thrown "All API keys exhausted without clear error"
        pool := updateLastFailedKey pool none
        ctx := ctx, attempts := att, updates := [none], lastResponse := lr } := by
  have hgn : getNextKey ctx = (none, ctx) := by
    rw [getNextKey, if_pos]
    rw [hnil]
    exact Nat.zero_le _
  rw [rotationLoop]
  split
  · rename_i ctx' heq
    rw [hgn] at heq
    simp only [Prod.mk.injEq] at heq
    rw [← heq.2]
    rw [if_neg]
    · rw [hlf]
    · rw [allTriedKeysRateLimited, htried]
      simp
  · rename_i k ctx' heq
    rw [hgn] at heq
    simp at heq

/-- Claim C6, counterexample.  The claim states that an empty key pool
makes `makeRequest` surface a ProviderNotConfigured outcome that the
dispatcher maps to 503.  In the source, an empty pool falls through the
rotation loop without any attempt and throws the generic `All API keys
exhausted without clear error` transport error, which the dispatcher's
catch block maps to 500, not 503. -/
theorem claim_C6_counterexample :
    (makeRequest (fun _ => .resp ⟨200, [], "x"⟩) none openaiSynthetic
      ⟨[], none⟩ []).attempts = [] ∧
    (makeRequest (fun _ => .resp ⟨200, [], "x"⟩) none openaiSynthetic
      ⟨[], none⟩ []).result = .thrown "All API keys exhausted without clear error" ∧
    (dispatchProxy true (makeRequest (fun _ => .resp ⟨200, [], "x"⟩) none openaiSynthetic
      ⟨[], none⟩ [])).status = 500 ∧
    (dispatchProxy true (makeRequest (fun _ => .resp ⟨200, [], "x"⟩) none openaiSynthetic
      ⟨[], none⟩ [])).status ≠ 503 := by
  decide

/-- Claim C6 (amended): for a provider whose key pool has zero keys,
`makeRequest` makes no upstream attempt and throws the generic
`All API keys exhausted without clear error` transport error, which the
dispatcher catch block maps to a 500 response — not to 503; the
503 `Provider not configured` response arises only when no client
instance exists for the route (`getProviderClient` returned null), before
`makeRequest` is ever invoked. -/
theorem claim_C6_amended :
    ∀ (up : String → AttemptOutcome) (customStatusCodes : Option (List Int))
      (synth : HttpResponse) (lf : Option String) (rand : List Nat),
      (makeRequest up customStatusCodes synth ⟨[], lf⟩ rand).attempts = [] ∧
      (makeRequest up customStatusCodes synth ⟨[], lf⟩ rand).result =
        .thrown "All API keys exhausted without clear error" ∧
      (dispatchProxy true (makeRequest up customStatusCodes synth ⟨[], lf⟩ rand)).status
        = 500 ∧
      (∀ tr, (dispatchProxy false tr).status = 503) := by
  intro up cc synth lf rand
  have hnil : (createRequestContext (⟨[], lf⟩ : KeyRotator) rand).apiKeys = [] :=
    (List.Perm.nil_eq (smartShuffle_perm [] lf rand).symm).symm
  have htr : makeRequest up cc synth ⟨[], lf⟩ rand =
      { result := .thrown "All API keys exhausted without clear error"
        pool := updateLastFailedKey ⟨[], lf⟩ none
        ctx := createRequestContext ⟨[], lf⟩ rand
        attempts := [], updates := [none], lastResponse := none } := by
    show rotationLoop up (cc.getD [429]) synth ⟨[], lf⟩
      (createRequestContext ⟨[], lf⟩ rand) none none []
      ((createRequestContext (⟨[], lf⟩ : KeyRotator) rand).apiKeys.length + 1) = _
    exact rotationLoop_empty up (cc.getD [429]) synth ⟨[], lf⟩
      (createRequestContext ⟨[], lf⟩ rand) none [] _ hnil rfl rfl
  rw [htr]
  exact ⟨rfl, rfl, rfl, fun tr => rfl⟩
